import Mathlib

/-!
Verification of the rich-text layout and overlay-compositing engine of
Note2Pic (`src/render.ts`, `src/config.ts`).

Strings are modelled as `List Char`, JS numbers as `ℚ`, and `Math.random`
as an injected source `ℕ → ℚ` of values in `[0,1)` (spec §9: "Randomness as
a capability").  Each definition is a direct translation of the
corresponding TypeScript function.
-/

namespace Note2Pic

/-! ## Tokenizer helpers shared by `splitIntoInlineSafeLines` and `parseInline` -/

/-- Model of JS `String.prototype.trim`'s whitespace test for the common
whitespace characters (space, tab, newline, carriage return). -/
def isWsChar (c : Char) : Bool :=
  c = ' ' ∨ c = '\t' ∨ c = '\n' ∨ c = '\r'

/-- Model of JS `String.prototype.trim`: drop whitespace from both ends. -/
def trimL (l : List Char) : List Char :=
  ((l.dropWhile isWsChar).reverse.dropWhile isWsChar).reverse

/-- `content.indexOf(">", i)` as used by the scanners: given the characters
after a `<`, return the characters strictly before the first `>` and the
characters after it, or `none` when no `>` exists. -/
def findGt : List Char → Option (List Char × List Char)
  | [] => none
  | c :: cs =>
    if c = '>' then some ([], cs)
    else match findGt cs with
      | some (a, r) => some (c :: a, r)
      | none => none

/-- `tag.startsWith("c:")` / `tag.startsWith("s:")` specialised to a leading
character followed by a colon. -/
def startsKind (k : Char) : List Char → Bool
  | a :: b :: _ => a = k ∧ b = ':'
  | _ => false

/-- `isOpenTag` from `splitIntoInlineSafeLines`. -/
def isOpenTagL (tag : List Char) : Bool :=
  startsKind 'c' tag ∨ startsKind 's' tag

/-- `isCloseTag` from `splitIntoInlineSafeLines`. -/
def isCloseTagL (tag : List Char) : Bool :=
  tag = ['/', 'c'] ∨ tag = ['/', 's']

/-- `` `<${rawTag}>` ``: wrap a raw tag body in angle brackets. -/
def tagOf (rawTag : List Char) : List Char :=
  '<' :: rawTag ++ ['>']

/-- `closeTokenFor`: the synthetic closing token for an open-tag body. -/
def closeTokenFor (openTok : List Char) : List Char :=
  if startsKind 'c' openTok then ['<', '/', 'c', '>']
  else if startsKind 's' openTok then ['<', '/', 's', '>']
  else []

/-- The kind character a close tag expects: `"/c"` pops a `c:` entry,
otherwise an `s:` entry. -/
def expectedKind (closeTag : List Char) : Char :=
  if closeTag = ['/', 'c'] then 'c' else 's'

/-- Remove the first element satisfying `p`, scanning from the head
(= the most recent entry, since the stack is modelled head-as-top).
This is the `for k = openStack.length - 1 ... splice` loop. -/
def removeFirst (p : List Char → Bool) : List (List Char) → List (List Char)
  | [] => []
  | t :: r => if p t then r else t :: removeFirst p r

/-- Pop from the open-tag stack the most recent entry whose kind matches the
close tag, if any (wrapper lines 158-164). -/
def popMatching (closeTag : List Char) (stack : List (List Char)) : List (List Char) :=
  removeFirst (startsKind (expectedKind closeTag)) stack

/-! ## The line wrapper `splitIntoInlineSafeLines` (render.ts lines 111-195) -/

/-- The mutable state of the wrapper loop: produced lines, current buffer,
visible-character count and open-tag stack (head = most recently pushed). -/
structure WrapSt where
  lines : List (List Char)
  buf : List Char
  visible : ℕ
  openStack : List (List Char)
deriving DecidableEq, Repr

/-- `buf = openStack.map(openTokenToTag).join("")`: the JS array index 0 is
the bottom of the stack, so the head-as-top model is reversed first. -/
def reopenTags (stack : List (List Char)) : List Char :=
  ((stack.reverse).map tagOf).flatten

/-- `for k = openStack.length-1 downto 0: buf += closeTokenFor(openStack[k])`:
closing tokens for the whole stack, most recent first. -/
def closersFor (stack : List (List Char)) : List Char :=
  (stack.map closeTokenFor).flatten

/-- `flushLine` (render.ts lines 127-136). -/
def flushLine (force : Bool) (st : WrapSt) : WrapSt :=
  if st.buf ≠ [] ∨ force then
    { lines := st.lines ++ [st.buf ++ closersFor st.openStack]
      buf := reopenTags st.openStack
      visible := 0
      openStack := st.openStack }
  else st

theorem findGt_eq : ∀ xs a r, findGt xs = some (a, r) → xs = a ++ '>' :: r ∧ '>' ∉ a := by
  intro xs
  induction xs with
  | nil => intro a r h; simp [findGt] at h
  | cons c cs ih =>
    intro a r h
    simp only [findGt] at h
    split at h
    · rename_i hc; injection h with h; injection h with h1 h2
      subst h1; subst h2; subst hc; simp
    · rename_i hc
      cases hfg : findGt cs with
      | none => rw [hfg] at h; simp at h
      | some p =>
        obtain ⟨a0, r0⟩ := p
        rw [hfg] at h; simp at h
        obtain ⟨h1, h2⟩ := h
        obtain ⟨he, hni⟩ := ih a0 r0 hfg
        subst h1; subst h2
        refine ⟨by simp [he], ?_⟩
        simp [hni]
        intro hcg
        exact hc hcg.symm

theorem findGt_length {xs a r} (h : findGt xs = some (a, r)) : r.length < xs.length := by
  have := (findGt_eq xs a r h).1
  subst this
  simp [List.length_append]
  omega

/-- The scanning loop of `splitIntoInlineSafeLines` (the `while` at
render.ts lines 138-185), in state-passing form.  `N` is `charsPerLine`. -/
def wrapLoop (N : ℕ) : List Char → WrapSt → WrapSt
  | [], st => st
  | c :: cs, st =>
    if c = '\n' then wrapLoop N cs (flushLine true st)
    else if c = '<' then
      match h : findGt cs with
      | some (inside, rest) =>
        let rawTag := trimL inside
        if isOpenTagL rawTag then
          wrapLoop N rest { st with buf := st.buf ++ tagOf rawTag,
                                    openStack := rawTag :: st.openStack }
        else if isCloseTagL rawTag then
          wrapLoop N rest { st with buf := st.buf ++ tagOf rawTag,
                                    openStack := popMatching rawTag st.openStack }
        else
          let token := '<' :: inside ++ ['>']
          let st1 := if st.visible + token.length > N then flushLine false st else st
          wrapLoop N rest { st1 with buf := st1.buf ++ token,
                                     visible := st1.visible + token.length }
      | none =>
        let st1 := if st.visible + 1 > N then flushLine false st else st
        wrapLoop N cs { st1 with buf := st1.buf ++ [c], visible := st1.visible + 1 }
    else
      let st1 := if st.visible + 1 > N then flushLine false st else st
      wrapLoop N cs { st1 with buf := st1.buf ++ [c], visible := st1.visible + 1 }
  termination_by l => l.length
  decreasing_by
  · simp only [List.length_cons]; omega
  · simp only [List.length_cons]; have := findGt_length h; omega
  · simp only [List.length_cons]; have := findGt_length h; omega
  · simp only [List.length_cons]; have := findGt_length h; omega
  · simp only [List.length_cons]; omega
  · simp only [List.length_cons]; omega

/-- `splitIntoInlineSafeLines` (render.ts lines 111-195): the scan followed
by the final close-and-flush (lines 187-192). -/
def splitIntoInlineSafeLines (content : List Char) (charsPerLine : ℕ) : List (List Char) :=
  let st := wrapLoop charsPerLine content ⟨[], [], 0, []⟩
  if st.buf ≠ [] ∨ st.openStack ≠ [] then
    st.lines ++ [st.buf ++ closersFor st.openStack]
  else st.lines

/-! ## Balance checker and visible characters

`lineScanStrict` re-runs the wrapper's tokenizer over a single string,
tracking the open-tag stack; it returns `none` when it meets a close tag
with no matching open entry, or a `<` with no later `>`.  A string `l` is
independently balanced markup exactly when `lineScanStrict l [] = some []`:
every recognized open tag is closed later in the string and every
recognized close tag has a matching earlier open tag. -/

def lineScanStrict : List Char → List (List Char) → Option (List (List Char))
  | [], s => some s
  | c :: cs, s =>
    if c = '<' then
      match h : findGt cs with
      | some (inside, rest) =>
        let rawTag := trimL inside
        if isOpenTagL rawTag then lineScanStrict rest (rawTag :: s)
        else if isCloseTagL rawTag then
          if s.any (startsKind (expectedKind rawTag)) then
            lineScanStrict rest (popMatching rawTag s)
          else none
        else lineScanStrict rest s
      | none => none
    else lineScanStrict cs s
  termination_by l => l.length
  decreasing_by
  · simp only [List.length_cons]; have := findGt_length h; omega
  · simp only [List.length_cons]; have := findGt_length h; omega
  · simp only [List.length_cons]; have := findGt_length h; omega
  · simp only [List.length_cons]; omega

/-- The visible characters of a string: everything except recognized
`<c:…>`/`<s:…>`/`</c>`/`</s>` tags.  Unrecognized bracketed tokens and
unterminated `<` count as visible, exactly as they count toward the
wrapper's character budget. -/
def visibleChars : List Char → List Char
  | [] => []
  | c :: cs =>
    if c = '<' then
      match h : findGt cs with
      | some (inside, rest) =>
        let rawTag := trimL inside
        if isOpenTagL rawTag ∨ isCloseTagL rawTag then visibleChars rest
        else ('<' :: inside ++ ['>']) ++ visibleChars rest
      | none => c :: visibleChars cs
    else c :: visibleChars cs
  termination_by l => l.length
  decreasing_by
  · simp only [List.length_cons]; have := findGt_length h; omega
  · simp only [List.length_cons]; omega
  · simp only [List.length_cons]; omega

example : splitIntoInlineSafeLines "ab<c:#ff0000>cd</c>ef".toList 4 =
    ["ab<c:#ff0000>cd</c>".toList, "ef".toList] := by
  simp [splitIntoInlineSafeLines, wrapLoop, flushLine, findGt, trimL, isWsChar,
    isOpenTagL, isCloseTagL, startsKind, tagOf, closeTokenFor, expectedKind,
    popMatching, removeFirst, reopenTags, closersFor]

example : splitIntoInlineSafeLines "</c>a".toList 5 = ["</c>a".toList] := by
  simp [splitIntoInlineSafeLines, wrapLoop, flushLine, findGt, trimL, isWsChar,
    isOpenTagL, isCloseTagL, startsKind, tagOf, closeTokenFor, expectedKind,
    popMatching, removeFirst, reopenTags, closersFor]

example : lineScanStrict "</c>a".toList [] = none := by
  simp [lineScanStrict, findGt, trimL, isWsChar, isOpenTagL, isCloseTagL,
    startsKind, expectedKind, popMatching, removeFirst]

example : visibleChars "ab<c:#ff0000>cd</c>ef".toList = "abcdef".toList := by
  simp [visibleChars, findGt, trimL, isWsChar, isOpenTagL, isCloseTagL, startsKind]

/-! ## Support lemmas about `trimL` and `findGt` -/

theorem dropWhile_head_false {p : Char → Bool} :
    ∀ {l : List Char} {a : Char} {t : List Char}, l.dropWhile p = a :: t → p a = false := by
  intro l
  induction l with
  | nil => intro a t h; simp at h
  | cons x xs ih =>
    intro a t h
    by_cases hx : p x
    · rw [List.dropWhile_cons_of_pos hx] at h; exact ih h
    · rw [List.dropWhile_cons_of_neg hx] at h
      injection h with h1 _
      subst h1
      simpa using hx

theorem dropWhile_dropWhile {p : Char → Bool} (l : List Char) :
    (l.dropWhile p).dropWhile p = l.dropWhile p := by
  cases hd : l.dropWhile p with
  | nil => simp
  | cons a t =>
    have := dropWhile_head_false hd
    rw [List.dropWhile_cons_of_neg (by simp [this])]

/-- Trimming the end of a string yields one of its initial segments. -/
theorem dropEndWs_eq (y : List Char) :
    ∃ s, y = (y.reverse.dropWhile isWsChar).reverse ++ s := by
  refine ⟨(y.reverse.takeWhile isWsChar).reverse, ?_⟩
  conv_lhs => rw [← List.reverse_reverse y,
    ← List.takeWhile_append_dropWhile (p := isWsChar) (l := y.reverse)]
  rw [List.reverse_append]

theorem trimL_trimL (l : List Char) : trimL (trimL l) = trimL l := by
  show ((((((l.dropWhile isWsChar).reverse.dropWhile
      isWsChar).reverse).dropWhile isWsChar).reverse.dropWhile isWsChar).reverse) = _
  have hdw : (((l.dropWhile isWsChar).reverse.dropWhile isWsChar).reverse).dropWhile isWsChar =
      ((l.dropWhile isWsChar).reverse.dropWhile isWsChar).reverse := by
    cases hc : ((l.dropWhile isWsChar).reverse.dropWhile isWsChar).reverse with
    | nil => simp
    | cons a t =>
      obtain ⟨s, hs⟩ := dropEndWs_eq (l.dropWhile isWsChar)
      rw [hc] at hs
      cases hy2 : l.dropWhile isWsChar with
      | nil => rw [hy2] at hs; simp at hs
      | cons b u =>
        rw [hy2] at hs
        simp only [List.cons_append] at hs
        injection hs with h1 _
        subst h1
        have hhead : isWsChar b = false := dropWhile_head_false hy2
        rw [List.dropWhile_cons_of_neg (by simp [hhead])]
  rw [hdw]
  rw [List.reverse_reverse, dropWhile_dropWhile]
  rfl

theorem mem_of_mem_dropWhile {p : Char → Bool} :
    ∀ {l : List Char} {a}, a ∈ l.dropWhile p → a ∈ l := by
  intro l
  induction l with
  | nil => intro a h; simp at h
  | cons x xs ih =>
    intro a h
    by_cases hx : p x
    · rw [List.dropWhile_cons_of_pos hx] at h
      exact List.mem_cons_of_mem _ (ih h)
    · rwa [List.dropWhile_cons_of_neg hx] at h

theorem mem_of_mem_trimL {a : Char} {l : List Char} (h : a ∈ trimL l) : a ∈ l := by
  unfold trimL at h
  rw [List.mem_reverse] at h
  have h2 := mem_of_mem_dropWhile h
  rw [List.mem_reverse] at h2
  exact mem_of_mem_dropWhile h2

theorem findGt_of_no_gt : ∀ (a z : List Char), '>' ∉ a →
    findGt (a ++ '>' :: z) = some (a, z) := by
  intro a
  induction a with
  | nil => intro z _; simp [findGt]
  | cons c cs ih =>
    intro z hna
    have hc : ¬ c = '>' := by
      intro hc; exact hna (by simp [hc])
    have hcs : '>' ∉ cs := fun hm => hna (List.mem_cons_of_mem _ hm)
    simp [List.cons_append, findGt, if_neg hc, ih z hcs]

/-! ## Token-level stepping lemmas for `lineScanStrict` and `visibleChars` -/

/-- Wellformedness of an open-tag body as stored on the wrapper's stack:
it is recognized, already trimmed, and contains no `>`. -/
def WfTag (t : List Char) : Prop :=
  isOpenTagL t = true ∧ trimL t = t ∧ '>' ∉ t

/-- Unfolding `lineScanStrict` on a `<` whose tag terminates. -/
theorem scan_lt_step {cs inside rest : List Char} (hfg : findGt cs = some (inside, rest))
    (s : List (List Char)) :
    lineScanStrict ('<' :: cs) s =
      (if isOpenTagL (trimL inside) then lineScanStrict rest (trimL inside :: s)
       else if isCloseTagL (trimL inside) then
         if s.any (startsKind (expectedKind (trimL inside))) then
           lineScanStrict rest (popMatching (trimL inside) s)
         else none
       else lineScanStrict rest s) := by
  rw [lineScanStrict]
  rw [if_pos (show ('<' : Char) = '<' from rfl)]
  split
  · rename_i i r hfg2
    rw [hfg] at hfg2
    injection hfg2 with hfg2
    injection hfg2 with h1 h2
    subst h1; subst h2
    rfl
  · rename_i hfg2
    rw [hfg] at hfg2
    cases hfg2

/-- Unfolding `lineScanStrict` on an unterminated `<`. -/
theorem scan_lt_none {cs : List Char} (hfg : findGt cs = none) (s : List (List Char)) :
    lineScanStrict ('<' :: cs) s = none := by
  rw [lineScanStrict]
  rw [if_pos (show ('<' : Char) = '<' from rfl)]
  split
  · rename_i i r hfg2
    rw [hfg] at hfg2
    cases hfg2
  · rfl

/-- Unfolding `visibleChars` on a `<` whose tag terminates. -/
theorem vis_lt_step {cs inside rest : List Char} (hfg : findGt cs = some (inside, rest)) :
    visibleChars ('<' :: cs) =
      (if isOpenTagL (trimL inside) ∨ isCloseTagL (trimL inside) then visibleChars rest
       else ('<' :: inside ++ ['>']) ++ visibleChars rest) := by
  rw [visibleChars]
  rw [if_pos (show ('<' : Char) = '<' from rfl)]
  split
  · rename_i i r hfg2
    rw [hfg] at hfg2
    injection hfg2 with hfg2
    injection hfg2 with h1 h2
    subst h1; subst h2
    simp
  · rename_i hfg2
    rw [hfg] at hfg2
    cases hfg2

theorem scan_openTag {t : List Char} (h : WfTag t) (z : List Char) (s : List (List Char)) :
    lineScanStrict (tagOf t ++ z) s = lineScanStrict z (t :: s) := by
  obtain ⟨ho, htr, hng⟩ := h
  rw [show tagOf t ++ z = '<' :: (t ++ '>' :: z) from by simp [tagOf]]
  rw [scan_lt_step (findGt_of_no_gt t z hng)]
  rw [htr, if_pos ho]

theorem vis_openTag {t : List Char} (h : WfTag t) (z : List Char) :
    visibleChars (tagOf t ++ z) = visibleChars z := by
  obtain ⟨ho, htr, hng⟩ := h
  rw [show tagOf t ++ z = '<' :: (t ++ '>' :: z) from by simp [tagOf]]
  rw [vis_lt_step (findGt_of_no_gt t z hng)]
  rw [htr, if_pos (by simp [ho])]

theorem trimL_slash_c : trimL ['/', 'c'] = ['/', 'c'] := by
  simp [trimL, isWsChar, List.dropWhile]

theorem trimL_slash_s : trimL ['/', 's'] = ['/', 's'] := by
  simp [trimL, isWsChar, List.dropWhile]

theorem scan_closeTag {r : List Char} (h : isCloseTagL r = true) (z : List Char)
    (s : List (List Char)) (hany : s.any (startsKind (expectedKind r)) = true) :
    lineScanStrict (tagOf r ++ z) s = lineScanStrict z (popMatching r s) := by
  rcases (by simpa [isCloseTagL] using h : r = ['/', 'c'] ∨ r = ['/', 's']) with hr | hr
  · subst hr
    rw [show tagOf ['/', 'c'] ++ z = '<' :: (['/', 'c'] ++ '>' :: z) from by simp [tagOf]]
    rw [scan_lt_step (findGt_of_no_gt ['/', 'c'] z (by simp))]
    rw [trimL_slash_c]
    rw [if_neg (by simp [isOpenTagL, startsKind]), if_pos (by simp [isCloseTagL]), if_pos hany]
  · subst hr
    rw [show tagOf ['/', 's'] ++ z = '<' :: (['/', 's'] ++ '>' :: z) from by simp [tagOf]]
    rw [scan_lt_step (findGt_of_no_gt ['/', 's'] z (by simp))]
    rw [trimL_slash_s]
    rw [if_neg (by simp [isOpenTagL, startsKind]), if_pos (by simp [isCloseTagL]), if_pos hany]

theorem vis_closeTag {r : List Char} (h : isCloseTagL r = true) (z : List Char) :
    visibleChars (tagOf r ++ z) = visibleChars z := by
  rcases (by simpa [isCloseTagL] using h : r = ['/', 'c'] ∨ r = ['/', 's']) with hr | hr
  · subst hr
    rw [show tagOf ['/', 'c'] ++ z = '<' :: (['/', 'c'] ++ '>' :: z) from by simp [tagOf]]
    rw [vis_lt_step (findGt_of_no_gt ['/', 'c'] z (by simp))]
    rw [trimL_slash_c]
    rw [if_pos (by simp [isCloseTagL])]
  · subst hr
    rw [show tagOf ['/', 's'] ++ z = '<' :: (['/', 's'] ++ '>' :: z) from by simp [tagOf]]
    rw [vis_lt_step (findGt_of_no_gt ['/', 's'] z (by simp))]
    rw [trimL_slash_s]
    rw [if_pos (by simp [isCloseTagL])]

theorem scan_unrecTok {inside : List Char} (hng : '>' ∉ inside)
    (ho : isOpenTagL (trimL inside) = false) (hc : isCloseTagL (trimL inside) = false)
    (z : List Char) (s : List (List Char)) :
    lineScanStrict (('<' :: inside ++ ['>']) ++ z) s = lineScanStrict z s := by
  rw [show ('<' :: inside ++ ['>']) ++ z = '<' :: (inside ++ '>' :: z) from by simp]
  rw [scan_lt_step (findGt_of_no_gt inside z hng)]
  rw [if_neg (by simp [ho]), if_neg (by simp [hc])]

theorem vis_unrecTok {inside : List Char} (hng : '>' ∉ inside)
    (ho : isOpenTagL (trimL inside) = false) (hc : isCloseTagL (trimL inside) = false)
    (z : List Char) :
    visibleChars (('<' :: inside ++ ['>']) ++ z) = ('<' :: inside ++ ['>']) ++ visibleChars z := by
  rw [show ('<' :: inside ++ ['>']) ++ z = '<' :: (inside ++ '>' :: z) from by simp]
  rw [vis_lt_step (findGt_of_no_gt inside z hng)]
  rw [if_neg (by simp [ho, hc])]

theorem scan_plain {c : Char} (h : ¬ c = '<') (z : List Char) (s : List (List Char)) :
    lineScanStrict (c :: z) s = lineScanStrict z s := by
  rw [lineScanStrict]
  simp [h]

theorem vis_plain {c : Char} (h : ¬ c = '<') (z : List Char) :
    visibleChars (c :: z) = c :: visibleChars z := by
  rw [visibleChars]
  simp [h]

theorem startsKind_c_of_s {t : List Char} (hk : startsKind 's' t = true) :
    startsKind 'c' t = false := by
  cases t with
  | nil => simp [startsKind] at hk
  | cons a u =>
    cases u with
    | nil => simp [startsKind] at hk
    | cons b v =>
      simp [startsKind] at hk ⊢
      intro hac
      rw [hac] at hk
      simp at hk

theorem scan_closers {stack : List (List Char)} (h : ∀ t ∈ stack, WfTag t) (z : List Char) :
    lineScanStrict (closersFor stack ++ z) stack = lineScanStrict z [] := by
  induction stack with
  | nil => simp [closersFor]
  | cons t rest ih =>
    obtain ⟨ho, _, _⟩ := h t (by simp)
    have hrest : ∀ u ∈ rest, WfTag u := fun u hu => h u (List.mem_cons_of_mem _ hu)
    rw [show closersFor (t :: rest) ++ z = closeTokenFor t ++ (closersFor rest ++ z) from by
      simp [closersFor]]
    rcases (by simpa [isOpenTagL] using ho :
        startsKind 'c' t = true ∨ startsKind 's' t = true) with hk | hk
    · rw [show closeTokenFor t = tagOf ['/', 'c'] from by simp [closeTokenFor, hk, tagOf]]
      rw [scan_closeTag (by simp [isCloseTagL]) _ _ (by
        simp [expectedKind, List.any_cons, hk])]
      rw [show popMatching ['/', 'c'] (t :: rest) = rest from by
        simp [popMatching, removeFirst, expectedKind, hk]]
      exact ih hrest
    · have hck := startsKind_c_of_s hk
      rw [show closeTokenFor t = tagOf ['/', 's'] from by
        simp [closeTokenFor, hck, hk, tagOf]]
      rw [scan_closeTag (by simp [isCloseTagL]) _ _ (by
        simp [expectedKind, List.any_cons, hk])]
      rw [show popMatching ['/', 's'] (t :: rest) = rest from by
        simp [popMatching, removeFirst, expectedKind, hk]]
      exact ih hrest

theorem vis_closers {stack : List (List Char)} (h : ∀ t ∈ stack, WfTag t) (z : List Char) :
    visibleChars (closersFor stack ++ z) = visibleChars z := by
  induction stack with
  | nil => simp [closersFor]
  | cons t rest ih =>
    obtain ⟨ho, _, _⟩ := h t (by simp)
    have hrest : ∀ u ∈ rest, WfTag u := fun u hu => h u (List.mem_cons_of_mem _ hu)
    rw [show closersFor (t :: rest) ++ z = closeTokenFor t ++ (closersFor rest ++ z) from by
      simp [closersFor]]
    rcases (by simpa [isOpenTagL] using ho :
        startsKind 'c' t = true ∨ startsKind 's' t = true) with hk | hk
    · rw [show closeTokenFor t = tagOf ['/', 'c'] from by simp [closeTokenFor, hk, tagOf]]
      rw [vis_closeTag (by simp [isCloseTagL])]
      exact ih hrest
    · have hck := startsKind_c_of_s hk
      rw [show closeTokenFor t = tagOf ['/', 's'] from by
        simp [closeTokenFor, hck, hk, tagOf]]
      rw [vis_closeTag (by simp [isCloseTagL])]
      exact ih hrest

theorem scan_reopenAux {m : List (List Char)} (h : ∀ t ∈ m, WfTag t) :
    ∀ (z : List Char) (s : List (List Char)),
    lineScanStrict ((m.map tagOf).flatten ++ z) s = lineScanStrict z (m.reverse ++ s) := by
  induction m with
  | nil => intro z s; simp
  | cons t rest ih =>
    intro z s
    have hwt := h t (by simp)
    have hrest : ∀ u ∈ rest, WfTag u := fun u hu => h u (List.mem_cons_of_mem _ hu)
    rw [show ((t :: rest).map tagOf).flatten ++ z = tagOf t ++ ((rest.map tagOf).flatten ++ z)
      from by simp]
    rw [scan_openTag hwt]
    rw [ih hrest]
    simp

theorem scan_reopen {stack : List (List Char)} (h : ∀ t ∈ stack, WfTag t) (z : List Char) :
    lineScanStrict (reopenTags stack ++ z) [] = lineScanStrict z stack := by
  have := scan_reopenAux (m := stack.reverse) (fun t ht => h t (by simpa using ht)) z []
  simpa [reopenTags] using this

theorem vis_reopenAux {m : List (List Char)} (h : ∀ t ∈ m, WfTag t) :
    ∀ (z : List Char), visibleChars ((m.map tagOf).flatten ++ z) = visibleChars z := by
  induction m with
  | nil => intro z; simp
  | cons t rest ih =>
    intro z
    have hwt := h t (by simp)
    have hrest : ∀ u ∈ rest, WfTag u := fun u hu => h u (List.mem_cons_of_mem _ hu)
    rw [show ((t :: rest).map tagOf).flatten ++ z = tagOf t ++ ((rest.map tagOf).flatten ++ z)
      from by simp]
    rw [vis_openTag hwt, ih hrest]

theorem vis_reopen {stack : List (List Char)} (h : ∀ t ∈ stack, WfTag t) (z : List Char) :
    visibleChars (reopenTags stack ++ z) = visibleChars z := by
  have := vis_reopenAux (m := stack.reverse) (fun t ht => h t (by simpa using ht)) z
  simpa [reopenTags] using this

theorem mem_removeFirst {p : List Char → Bool} :
    ∀ {l : List (List Char)} {a : List Char}, a ∈ removeFirst p l → a ∈ l := by
  intro l
  induction l with
  | nil => intro a h; simp [removeFirst] at h
  | cons t r ih =>
    intro a h
    rw [removeFirst] at h
    by_cases hp : p t
    · rw [if_pos hp] at h
      exact List.mem_cons_of_mem _ h
    · rw [if_neg hp] at h
      rcases List.mem_cons.1 h with h1 | h1
      · exact h1 ▸ List.mem_cons_self _ _
      · exact List.mem_cons_of_mem _ (ih h1)

/-! ## Unfolding lemmas for `wrapLoop` -/

theorem wrapLoop_nil (N : ℕ) (st : WrapSt) : wrapLoop N [] st = st := by
  rw [wrapLoop]

theorem wrapLoop_nl (N : ℕ) (cs : List Char) (st : WrapSt) :
    wrapLoop N ('\n' :: cs) st = wrapLoop N cs (flushLine true st) := by
  rw [wrapLoop]
  rw [if_pos (show ('\n' : Char) = '\n' from rfl)]

theorem wrapLoop_match_step {cs inside rest : List Char}
    (hfg : findGt cs = some (inside, rest)) (N : ℕ) (st : WrapSt) :
    wrapLoop N ('<' :: cs) st =
      (if isOpenTagL (trimL inside) then
        wrapLoop N rest { st with buf := st.buf ++ tagOf (trimL inside),
                                  openStack := trimL inside :: st.openStack }
      else if isCloseTagL (trimL inside) then
        wrapLoop N rest { st with buf := st.buf ++ tagOf (trimL inside),
                                  openStack := popMatching (trimL inside) st.openStack }
      else
        wrapLoop N rest
          { (if st.visible + ('<' :: inside ++ ['>']).length > N then flushLine false st
             else st) with
            buf := (if st.visible + ('<' :: inside ++ ['>']).length > N then flushLine false st
                    else st).buf ++ ('<' :: inside ++ ['>']),
            visible := (if st.visible + ('<' :: inside ++ ['>']).length > N then
                          flushLine false st else st).visible +
                       ('<' :: inside ++ ['>']).length }) := by
  rw [wrapLoop]
  rw [if_neg (show ¬ ('<' : Char) = '\n' by decide),
    if_pos (show ('<' : Char) = '<' from rfl)]
  split
  · rename_i i r hfg2
    rw [hfg] at hfg2
    injection hfg2 with hfg2
    injection hfg2 with h1 h2
    subst h1; subst h2
    rfl
  · rename_i hfg2
    rw [hfg] at hfg2
    cases hfg2

theorem wrapLoop_plain {c : Char} (h1 : ¬ c = '\n') (h2 : ¬ c = '<')
    (N : ℕ) (cs : List Char) (st : WrapSt) :
    wrapLoop N (c :: cs) st =
      wrapLoop N cs
        { (if st.visible + 1 > N then flushLine false st else st) with
          buf := (if st.visible + 1 > N then flushLine false st else st).buf ++ [c],
          visible := (if st.visible + 1 > N then flushLine false st else st).visible + 1 } := by
  rw [wrapLoop]
  rw [if_neg h1, if_neg h2]

/-! ## The wrapper invariant -/

/-- The invariant the wrapper loop maintains:
* every stack entry is a wellformed open-tag body;
* re-scanning the current buffer from an empty stack ends with exactly the
  wrapper's open stack (stated in continuation form over any continuation `z`);
* the visible characters of the buffer are a prefix of those of any
  extension of the buffer;
* every already-emitted line is independently balanced. -/
def WfWrapSt (st : WrapSt) : Prop :=
  (∀ t ∈ st.openStack, WfTag t) ∧
  (∀ z, lineScanStrict (st.buf ++ z) [] = lineScanStrict z st.openStack) ∧
  (∀ z, visibleChars (st.buf ++ z) = visibleChars st.buf ++ visibleChars z) ∧
  (∀ l ∈ st.lines, lineScanStrict l [] = some [])

theorem flush_preserve {st : WrapSt} (h : WfWrapSt st) (force : Bool) :
    WfWrapSt (flushLine force st) ∧ (flushLine force st).openStack = st.openStack ∧
    ((flushLine force st).lines.map visibleChars).flatten ++
        visibleChars (flushLine force st).buf =
      (st.lines.map visibleChars).flatten ++ visibleChars st.buf := by
  obtain ⟨hstk, hscan, hvis, hlines⟩ := h
  rw [flushLine]
  split
  · have hline : lineScanStrict (st.buf ++ closersFor st.openStack) [] = some [] := by
      rw [hscan (closersFor st.openStack)]
      have := scan_closers hstk []
      rw [List.append_nil] at this
      rw [this]
      rw [lineScanStrict]
    have hreopen_eps : visibleChars (reopenTags st.openStack) = [] := by
      have := vis_reopen hstk []
      rw [List.append_nil] at this
      rw [this, visibleChars]
    have hclosers_eps : visibleChars (closersFor st.openStack) = [] := by
      have := vis_closers hstk []
      rw [List.append_nil] at this
      rw [this, visibleChars]
    refine ⟨⟨hstk, ?_, ?_, ?_⟩, rfl, ?_⟩
    · intro z
      exact scan_reopen hstk z
    · intro z
      rw [vis_reopen hstk z, hreopen_eps, List.nil_append]
    · intro l hl
      rcases List.mem_append.1 hl with h1 | h1
      · exact hlines l h1
      · rw [List.mem_singleton.1 h1]
        exact hline
    · show ((st.lines ++ [st.buf ++ closersFor st.openStack]).map visibleChars).flatten ++
          visibleChars (reopenTags st.openStack) = _
      rw [hreopen_eps, List.append_nil, List.map_append, List.flatten_append]
      simp only [List.map_cons, List.map_nil, List.flatten_cons, List.flatten_nil,
        List.append_nil]
      rw [hvis (closersFor st.openStack), hclosers_eps, List.append_nil]
  · exact ⟨⟨hstk, hscan, hvis, hlines⟩, rfl, rfl⟩

theorem maybeFlush_preserve {st : WrapSt} (h : WfWrapSt st) (cond : Prop) [Decidable cond] :
    WfWrapSt (if cond then flushLine false st else st) ∧
    (if cond then flushLine false st else st).openStack = st.openStack ∧
    ((if cond then flushLine false st else st).lines.map visibleChars).flatten ++
        visibleChars (if cond then flushLine false st else st).buf =
      (st.lines.map visibleChars).flatten ++ visibleChars st.buf := by
  split
  · exact flush_preserve h false
  · exact ⟨h, rfl, rfl⟩

theorem vis_nil : visibleChars [] = [] := by rw [visibleChars]

theorem scan_nil (s : List (List Char)) : lineScanStrict [] s = some s := by
  rw [lineScanStrict]

theorem vis_openTag_eps {t : List Char} (h : WfTag t) : visibleChars (tagOf t) = [] := by
  have := vis_openTag h []
  rw [List.append_nil, vis_nil] at this
  exact this

theorem vis_closeTag_eps {r : List Char} (h : isCloseTagL r = true) :
    visibleChars (tagOf r) = [] := by
  have := vis_closeTag h []
  rw [List.append_nil, vis_nil] at this
  exact this

/-- The master invariant of the wrapper: starting from a wellformed state,
if the strict scan of the remaining input from the current open stack
succeeds, the loop ends in a wellformed state, and (when the input has no
literal newline) the visible characters of emitted lines plus buffer grow by
exactly the visible characters of the input. -/
theorem wrapLoop_master (N : ℕ) :
    ∀ (len : ℕ) (content : List Char), content.length ≤ len →
    ∀ (st : WrapSt) (fin : List (List Char)),
    WfWrapSt st →
    lineScanStrict content st.openStack = some fin →
    WfWrapSt (wrapLoop N content st) ∧
    ('\n' ∉ content →
      ((wrapLoop N content st).lines.map visibleChars).flatten ++
        visibleChars (wrapLoop N content st).buf =
      (st.lines.map visibleChars).flatten ++ visibleChars st.buf ++ visibleChars content) := by
  intro len
  induction len with
  | zero =>
    intro content hl st fin hwf _
    have hc : content = [] := by cases content <;> simp_all
    subst hc
    rw [wrapLoop_nil]
    exact ⟨hwf, fun _ => by rw [vis_nil, List.append_nil]⟩
  | succ k ih =>
    intro content hl st fin hwf hscan
    match content with
    | [] =>
      rw [wrapLoop_nil]
      exact ⟨hwf, fun _ => by rw [vis_nil, List.append_nil]⟩
    | c :: cs =>
      by_cases hnl : c = '\n'
      · subst hnl
        rw [wrapLoop_nl]
        obtain ⟨hwf1, hstk1, _⟩ := flush_preserve hwf true
        have hscan1 : lineScanStrict cs (flushLine true st).openStack = some fin := by
          rw [hstk1]
          rw [← scan_plain (show ¬ ('\n' : Char) = '<' by decide) cs st.openStack]
          exact hscan
        have hcs : cs.length ≤ k := by simp at hl; omega
        obtain ⟨hwfR, _⟩ := ih cs hcs (flushLine true st) fin hwf1 hscan1
        exact ⟨hwfR, fun hnl2 => absurd (List.mem_cons_self _ _) hnl2⟩
      · by_cases hlt : c = '<'
        · subst hlt
          cases hfg : findGt cs with
          | none =>
            exfalso
            rw [scan_lt_none hfg] at hscan
            cases hscan
          | some p =>
            obtain ⟨inside, rest⟩ := p
            obtain ⟨hcseq, hng_inside⟩ := findGt_eq cs inside rest hfg
            have hrest_len : rest.length ≤ k := by
              have := findGt_length hfg; simp at hl; omega
            have hnl_rest : '\n' ∉ ('<' :: cs) → '\n' ∉ rest := by
              intro hn hm
              exact hn (List.mem_cons_of_mem _
                (by rw [hcseq]; exact List.mem_append_right _ (List.mem_cons_of_mem _ hm)))
            rw [scan_lt_step hfg] at hscan
            rw [wrapLoop_match_step hfg]
            obtain ⟨hstk, hscanb, hvisb, hlines⟩ := hwf
            by_cases ho : isOpenTagL (trimL inside) = true
            · rw [if_pos ho] at hscan ⊢
              have hwt : WfTag (trimL inside) :=
                ⟨ho, trimL_trimL inside, fun hm => hng_inside (mem_of_mem_trimL hm)⟩
              have htag_eps : visibleChars (tagOf (trimL inside)) = [] := vis_openTag_eps hwt
              have hwf2 : WfWrapSt { st with buf := st.buf ++ tagOf (trimL inside),
                                             openStack := trimL inside :: st.openStack } := by
                refine ⟨?_, ?_, ?_, hlines⟩
                · intro u hu
                  rcases List.mem_cons.1 hu with h1 | h1
                  · exact h1 ▸ hwt
                  · exact hstk u h1
                · intro z
                  show lineScanStrict ((st.buf ++ tagOf (trimL inside)) ++ z) [] = _
                  rw [List.append_assoc, hscanb (tagOf (trimL inside) ++ z), scan_openTag hwt]
                · intro z
                  show visibleChars ((st.buf ++ tagOf (trimL inside)) ++ z) = _
                  rw [List.append_assoc, hvisb (tagOf (trimL inside) ++ z), vis_openTag hwt,
                    hvisb (tagOf (trimL inside)), htag_eps, List.append_nil]
              obtain ⟨hwfR, hvisR⟩ := ih rest hrest_len _ fin hwf2 hscan
              refine ⟨hwfR, fun hnl2 => ?_⟩
              rw [hvisR (hnl_rest hnl2)]
              show (st.lines.map visibleChars).flatten ++
                  visibleChars (st.buf ++ tagOf (trimL inside)) ++ visibleChars rest = _
              rw [hvisb (tagOf (trimL inside)), htag_eps, List.append_nil,
                vis_lt_step hfg, if_pos (by simp [ho])]
            · rw [if_neg ho] at hscan ⊢
              by_cases hc : isCloseTagL (trimL inside) = true
              · rw [if_pos hc] at hscan ⊢
                by_cases hany :
                    st.openStack.any (startsKind (expectedKind (trimL inside))) = true
                · rw [if_pos hany] at hscan
                  have htag_eps : visibleChars (tagOf (trimL inside)) = [] :=
                    vis_closeTag_eps hc
                  have hwf2 : WfWrapSt { st with
                      buf := st.buf ++ tagOf (trimL inside),
                      openStack := popMatching (trimL inside) st.openStack } := by
                    refine ⟨?_, ?_, ?_, hlines⟩
                    · intro u hu
                      exact hstk u (mem_removeFirst hu)
                    · intro z
                      show lineScanStrict ((st.buf ++ tagOf (trimL inside)) ++ z) [] = _
                      rw [List.append_assoc, hscanb (tagOf (trimL inside) ++ z),
                        scan_closeTag hc z st.openStack hany]
                    · intro z
                      show visibleChars ((st.buf ++ tagOf (trimL inside)) ++ z) = _
                      rw [List.append_assoc, hvisb (tagOf (trimL inside) ++ z),
                        vis_closeTag hc, hvisb (tagOf (trimL inside)), htag_eps,
                        List.append_nil]
                  obtain ⟨hwfR, hvisR⟩ := ih rest hrest_len _ fin hwf2 hscan
                  refine ⟨hwfR, fun hnl2 => ?_⟩
                  rw [hvisR (hnl_rest hnl2)]
                  show (st.lines.map visibleChars).flatten ++
                      visibleChars (st.buf ++ tagOf (trimL inside)) ++ visibleChars rest = _
                  rw [hvisb (tagOf (trimL inside)), htag_eps, List.append_nil,
                    vis_lt_step hfg, if_pos (by simp [hc])]
                · exfalso
                  rw [if_neg hany] at hscan
                  cases hscan
              · rw [if_neg hc] at hscan ⊢
                obtain ⟨hwf1, hstk1, hflat1⟩ := maybeFlush_preserve
                  (⟨hstk, hscanb, hvisb, hlines⟩ : WfWrapSt st)
                  (st.visible + ('<' :: inside ++ ['>']).length > N)
                obtain ⟨hstk1w, hscan1w, hvis1w, hlines1w⟩ := hwf1
                have htokvis : ∀ z, visibleChars (('<' :: inside ++ ['>']) ++ z) =
                    ('<' :: inside ++ ['>']) ++ visibleChars z :=
                  vis_unrecTok hng_inside (by simp [ho]) (by simp [hc])
                have htokvis_alone : visibleChars ('<' :: inside ++ ['>']) =
                    ('<' :: inside ++ ['>']) := by
                  have := htokvis []
                  rwa [List.append_nil, vis_nil, List.append_nil] at this
                have hwf2 : WfWrapSt
                    { (if st.visible + ('<' :: inside ++ ['>']).length > N then
                        flushLine false st else st) with
                      buf := (if st.visible + ('<' :: inside ++ ['>']).length > N then
                        flushLine false st else st).buf ++ ('<' :: inside ++ ['>']),
                      visible := (if st.visible + ('<' :: inside ++ ['>']).length > N then
                        flushLine false st else st).visible +
                        ('<' :: inside ++ ['>']).length } := by
                  refine ⟨hstk1w, ?_, ?_, hlines1w⟩
                  · intro z
                    show lineScanStrict (((if st.visible + ('<' :: inside ++ ['>']).length > N
                        then flushLine false st else st).buf ++ ('<' :: inside ++ ['>'])) ++ z)
                        [] = _
                    rw [List.append_assoc, hscan1w (('<' :: inside ++ ['>']) ++ z),
                      scan_unrecTok hng_inside (by simp [ho]) (by simp [hc])]
                  · intro z
                    show visibleChars (((if st.visible + ('<' :: inside ++ ['>']).length > N
                        then flushLine false st else st).buf ++ ('<' :: inside ++ ['>'])) ++ z)
                        = _
                    rw [List.append_assoc, hvis1w (('<' :: inside ++ ['>']) ++ z), htokvis,
                      hvis1w ('<' :: inside ++ ['>']), htokvis_alone]
                    simp
                have hscan2 : lineScanStrict rest
                    (({ (if st.visible + ('<' :: inside ++ ['>']).length > N then
                        flushLine false st else st) with
                      buf := (if st.visible + ('<' :: inside ++ ['>']).length > N then
                        flushLine false st else st).buf ++ ('<' :: inside ++ ['>']),
                      visible := (if st.visible + ('<' :: inside ++ ['>']).length > N then
                        flushLine false st else st).visible +
                        ('<' :: inside ++ ['>']).length } : WrapSt).openStack) = some fin := by
                  show lineScanStrict rest
                    (if st.visible + ('<' :: inside ++ ['>']).length > N then
                        flushLine false st else st).openStack = some fin
                  rw [hstk1]
                  exact hscan
                obtain ⟨hwfR, hvisR⟩ := ih rest hrest_len _ fin hwf2 hscan2
                refine ⟨hwfR, fun hnl2 => ?_⟩
                rw [hvisR (hnl_rest hnl2)]
                show ((if st.visible + ('<' :: inside ++ ['>']).length > N then
                    flushLine false st else st).lines.map visibleChars).flatten ++
                  visibleChars ((if st.visible + ('<' :: inside ++ ['>']).length > N then
                    flushLine false st else st).buf ++ ('<' :: inside ++ ['>'])) ++
                  visibleChars rest = _
                rw [hvis1w ('<' :: inside ++ ['>']), htokvis_alone, vis_lt_step hfg,
                  if_neg (c := isOpenTagL (trimL inside) = true ∨
                    isCloseTagL (trimL inside) = true) (by simp [ho, hc])]
                simp only [← List.append_assoc]
                rw [hflat1]
        · -- plain character, c ≠ '\n', c ≠ '<'
          rw [wrapLoop_plain hnl hlt]
          rw [scan_plain hlt cs st.openStack] at hscan
          obtain ⟨hwf1, hstk1, hflat1⟩ := maybeFlush_preserve hwf (st.visible + 1 > N)
          obtain ⟨hstk1w, hscan1w, hvis1w, hlines1w⟩ := hwf1
          have hcvis : visibleChars [c] = [c] := by
            rw [vis_plain hlt, vis_nil]
          have hwf2 : WfWrapSt
              { (if st.visible + 1 > N then flushLine false st else st) with
                buf := (if st.visible + 1 > N then flushLine false st else st).buf ++ [c],
                visible := (if st.visible + 1 > N then flushLine false st else st).visible
                  + 1 } := by
            refine ⟨hstk1w, ?_, ?_, hlines1w⟩
            · intro z
              show lineScanStrict (((if st.visible + 1 > N then flushLine false st else st).buf
                  ++ [c]) ++ z) [] = _
              rw [List.append_assoc, hscan1w ([c] ++ z)]
              show lineScanStrict (c :: z) _ = _
              rw [scan_plain hlt]
            · intro z
              show visibleChars (((if st.visible + 1 > N then flushLine false st else st).buf
                  ++ [c]) ++ z) = _
              rw [List.append_assoc, hvis1w ([c] ++ z)]
              show _ ++ visibleChars (c :: z) = _
              rw [vis_plain hlt, hvis1w [c], hcvis]
              simp
          have hcs : cs.length ≤ k := by simp at hl; omega
          have hscan2 : lineScanStrict cs
              (({ (if st.visible + 1 > N then flushLine false st else st) with
                buf := (if st.visible + 1 > N then flushLine false st else st).buf ++ [c],
                visible := (if st.visible + 1 > N then flushLine false st else st).visible
                  + 1 } : WrapSt).openStack) = some fin := by
            show lineScanStrict cs
              (if st.visible + 1 > N then flushLine false st else st).openStack = some fin
            rw [hstk1]
            exact hscan
          obtain ⟨hwfR, hvisR⟩ := ih cs hcs _ fin hwf2 hscan2
          refine ⟨hwfR, fun hnl2 => ?_⟩
          have hnl_cs : '\n' ∉ cs := fun hm => hnl2 (List.mem_cons_of_mem _ hm)
          rw [hvisR hnl_cs]
          show ((if st.visible + 1 > N then flushLine false st else st).lines.map
              visibleChars).flatten ++
            visibleChars ((if st.visible + 1 > N then flushLine false st else st).buf ++ [c]) ++
            visibleChars cs = _
          rw [hvis1w [c], hcvis, vis_plain hlt]
          simp only [← List.append_assoc]
          rw [hflat1]
          simp

/-! ## Claims C1 and C4 -/

theorem wfWrapSt_init : WfWrapSt ⟨[], [], 0, []⟩ := by
  refine ⟨by simp, fun z => rfl, fun z => by rw [vis_nil]; rfl, by simp⟩

/-- C1 counterexample: on the input `"</c>a"`, whose close tag has no
matching open tag, the wrapper emits the single line `"</c>a"`, which
contains a `</c>` not preceded by a matching open tag (its strict re-scan
fails), so the claimed balance does not hold for every input string. -/
theorem c1_counterexample :
    splitIntoInlineSafeLines "</c>a".toList 5 = ["</c>a".toList] ∧
    lineScanStrict "</c>a".toList [] = none := by
  constructor
  · simp [splitIntoInlineSafeLines, wrapLoop, flushLine, findGt, trimL, isWsChar,
      isOpenTagL, isCloseTagL, startsKind, tagOf, closeTokenFor, expectedKind,
      popMatching, removeFirst, reopenTags, closersFor]
  · simp [lineScanStrict, findGt, trimL, isWsChar, isOpenTagL, isCloseTagL,
      startsKind, expectedKind, popMatching, removeFirst]

/-- C1 (amended): for every input string whose strict tag scan succeeds
(every recognized close tag has a matching earlier open tag of its kind, and
every `<` is followed by a later `>`), and every budget `N ≥ 1`, every
DisplayLine produced by `splitIntoInlineSafeLines` is independently balanced
markup: re-scanning the line ends with an empty open-tag stack and meets no
unmatched close tag and no unterminated `<`. -/
theorem splitIntoInlineSafeLines_balanced (content : List Char) (N : ℕ) (hN : 1 ≤ N)
    (h : (lineScanStrict content []).isSome = true) :
    ∀ l ∈ splitIntoInlineSafeLines content N, lineScanStrict l [] = some [] := by
  obtain ⟨fin, hfin⟩ := Option.isSome_iff_exists.1 h
  obtain ⟨⟨hstkR, hscanR, hvisR, hlinesR⟩, _⟩ :=
    wrapLoop_master N content.length content le_rfl ⟨[], [], 0, []⟩ fin wfWrapSt_init hfin
  intro l hl
  rw [splitIntoInlineSafeLines] at hl
  split at hl
  · rcases List.mem_append.1 hl with h1 | h1
    · exact hlinesR l h1
    · rw [List.mem_singleton.1 h1]
      rw [hscanR]
      have := scan_closers hstkR []
      rw [List.append_nil] at this
      rw [this, scan_nil]
  · exact hlinesR l hl

/-- C1 witness at a concrete input: the single line produced for
`"a<c:red>b"` with budget 2 re-scans to an empty stack. -/
theorem c1_witness : lineScanStrict "a<c:red>b</c>".toList [] = some [] := by
  have hmem : "a<c:red>b</c>".toList ∈ splitIntoInlineSafeLines "a<c:red>b".toList 2 := by
    simp [splitIntoInlineSafeLines, wrapLoop, flushLine, findGt, trimL, isWsChar,
      isOpenTagL, isCloseTagL, startsKind, tagOf, closeTokenFor, expectedKind,
      popMatching, removeFirst, reopenTags, closersFor]
  exact splitIntoInlineSafeLines_balanced "a<c:red>b".toList 2 (by norm_num)
    (by simp [lineScanStrict, findGt, trimL, isWsChar, isOpenTagL, isCloseTagL,
      startsKind, expectedKind, popMatching, removeFirst])
    "a<c:red>b</c>".toList hmem

/-- C4: for every input string consisting of balanced markup (its strict tag
scan succeeds and ends with an empty stack) and containing no literal
newline, and every budget `N ≥ 1`, concatenating the visible characters of
all DisplayLines, in order, reproduces the visible characters of the
input verbatim. -/
theorem splitIntoInlineSafeLines_visible (content : List Char) (N : ℕ) (hN : 1 ≤ N)
    (hb : lineScanStrict content [] = some []) (hnl : '\n' ∉ content) :
    ((splitIntoInlineSafeLines content N).map visibleChars).flatten = visibleChars content := by
  obtain ⟨⟨hstkR, hscanR, hvisR, hlinesR⟩, hvisEq⟩ :=
    wrapLoop_master N content.length content le_rfl ⟨[], [], 0, []⟩ [] wfWrapSt_init hb
  have hvisEq2 := hvisEq hnl
  simp only [List.map_nil, List.flatten_nil, List.nil_append] at hvisEq2
  rw [vis_nil, List.nil_append] at hvisEq2
  rw [splitIntoInlineSafeLines]
  split
  · rw [List.map_append, List.flatten_append]
    simp only [List.map_cons, List.map_nil, List.flatten_cons, List.flatten_nil,
      List.append_nil]
    rw [hvisR (closersFor (wrapLoop N content ⟨[], [], 0, []⟩).openStack)]
    have hceps : visibleChars (closersFor (wrapLoop N content ⟨[], [], 0, []⟩).openStack)
        = [] := by
      have := vis_closers hstkR []
      rw [List.append_nil, vis_nil] at this
      exact this
    rw [hceps, List.append_nil]
    exact hvisEq2
  · rename_i hcond
    push_neg at hcond
    obtain ⟨hbuf, _⟩ := hcond
    rw [← hvisEq2, hbuf, vis_nil, List.append_nil]

/-- C4 witness at a concrete input. -/
theorem c4_witness :
    ((splitIntoInlineSafeLines "ab<c:#ff0000>cd</c>ef".toList 4).map visibleChars).flatten =
      visibleChars "ab<c:#ff0000>cd</c>ef".toList :=
  splitIntoInlineSafeLines_visible "ab<c:#ff0000>cd</c>ef".toList 4 (by norm_num)
    (by simp [lineScanStrict, findGt, trimL, isWsChar, isOpenTagL, isCloseTagL,
      startsKind, expectedKind, popMatching, removeFirst])
    (by simp)

/-! ## The markup resolver `parseInline` (render.ts lines 198-243) -/

/-- The base style handed to `parseInline`: a required color and font size. -/
structure InlineBase where
  color : List Char
  fontSize : ℚ
deriving DecidableEq, Repr

/-- A style-stack frame: `{ color?: string; fontSize?: number }`. -/
structure InlineFrame where
  color : Option (List Char)
  fontSize : Option ℚ
deriving DecidableEq, Repr

/-- `InlineSpan` from render.ts line 198. -/
structure InlineSpan where
  text : List Char
  color : Option (List Char)
  fontSize : Option ℚ
deriving DecidableEq, Repr

/-- The initial stack frame `{ color: base.color, fontSize: base.fontSize }`. -/
def baseFrame (b : InlineBase) : InlineFrame :=
  ⟨some b.color, some b.fontSize⟩

/-- `stack[stack.length - 1]` (head-as-top model); the empty case models the
JS object spread of `undefined`, which yields an empty object (that state is
unreachable from the initial singleton stack). -/
def topFrame : List InlineFrame → InlineFrame
  | t :: _ => t
  | [] => ⟨none, none⟩

/-- `pushBuf`: flush the buffered literal text as a span styled with the
current top of stack.  (On an empty stack the JS code would throw reading
`top.color`; that state is unreachable, modelled as a no-op.) -/
def pushBufSpans (spans : List InlineSpan) (buf : List Char)
    (stack : List InlineFrame) : List InlineSpan :=
  if buf = [] then spans
  else match stack with
    | top :: _ => spans ++ [⟨buf, top.color, top.fontSize⟩]
    | [] => spans

/-- `const prev = stack.pop(); if (stack.length === 0) stack.push(prev ?? base)`
(render.ts lines 218-219). -/
def popRestore (base : InlineFrame) : List InlineFrame → List InlineFrame
  | [] => [base]
  | [p] => [p]
  | _ :: rest => rest

/-- Model of JS `Number(str)` together with the `!Number.isNaN(num) && num > 0`
guard (render.ts lines 228-229), for plain positive decimal-digit literals;
`Number` values that are not positive integers written in digits are mapped
to `none` (guard fails, size left unchanged). -/
def parsePosNum (s : List Char) : Option ℚ :=
  match s.foldl (fun acc c => match acc with
    | none => none
    | some n => if c.isDigit then some (n * 10 + (c.toNat - '0'.toNat)) else none)
    (some (0 : ℕ)) with
  | none => none
  | some n => if 0 < n then some (n : ℚ) else none

/-- Apply a recognized open tag to a copy of the top frame
(render.ts lines 225-230). -/
def applyOpen (tag : List Char) (top : InlineFrame) : InlineFrame :=
  if startsKind 'c' tag then { top with color := some (tag.drop 2) }
  else if startsKind 's' tag then
    match parsePosNum (tag.drop 2) with
    | some q => { top with fontSize := some q }
    | none => top
  else top

/-- The scanning loop of `parseInline` (render.ts lines 211-240), in
state-passing form; returns the emitted spans and the final style stack. -/
def parseInlineLoop (base : InlineFrame) :
    List Char → List InlineFrame → List Char → List InlineSpan →
    List InlineSpan × List InlineFrame
  | [], stack, buf, spans => (pushBufSpans spans buf stack, stack)
  | c :: cs, stack, buf, spans =>
    if c = '<' then
      match h : findGt cs with
      | none => parseInlineLoop base cs stack (buf ++ [c]) spans
      | some (inside, rest) =>
        if isCloseTagL (trimL inside) then
          parseInlineLoop base rest (popRestore base stack) []
            (pushBufSpans spans buf stack)
        else if isOpenTagL (trimL inside) then
          parseInlineLoop base rest (applyOpen (trimL inside) (topFrame stack) :: stack) []
            (pushBufSpans spans buf stack)
        else parseInlineLoop base rest stack (buf ++ ('<' :: inside ++ ['>'])) spans
    else parseInlineLoop base cs stack (buf ++ [c]) spans
  termination_by l => l.length
  decreasing_by
  · simp only [List.length_cons]; omega
  · simp only [List.length_cons]; have := findGt_length h; omega
  · simp only [List.length_cons]; have := findGt_length h; omega
  · simp only [List.length_cons]; have := findGt_length h; omega
  · simp only [List.length_cons]; omega

/-- `parseInline` (render.ts lines 199-243). -/
def parseInline (text : List Char) (b : InlineBase) : List InlineSpan :=
  (parseInlineLoop (baseFrame b) text [baseFrame b] [] []).1

/-- A frame whose two style fields are both defined. -/
def DefinedFrame (f : InlineFrame) : Prop :=
  f.color.isSome = true ∧ f.fontSize.isSome = true

/-- A span carrying a defined color and font size. -/
def DefinedSpan (sp : InlineSpan) : Prop :=
  sp.color.isSome = true ∧ sp.fontSize.isSome = true

theorem applyOpen_defined {tag : List Char} {top : InlineFrame} (h : DefinedFrame top) :
    DefinedFrame (applyOpen tag top) := by
  obtain ⟨h1, h2⟩ := h
  rw [applyOpen]
  split
  · exact ⟨by simp, h2⟩
  · split
    · split
      · exact ⟨h1, by simp⟩
      · exact ⟨h1, h2⟩
    · exact ⟨h1, h2⟩

theorem pushBufSpans_defined {spans buf stack} (hstack : ∀ f ∈ stack, DefinedFrame f)
    (hspans : ∀ sp ∈ spans, DefinedSpan sp) :
    ∀ sp ∈ pushBufSpans spans buf stack, DefinedSpan sp := by
  intro sp hsp
  rw [pushBufSpans.eq_def] at hsp
  split at hsp
  · exact hspans sp hsp
  · split at hsp
    · rcases List.mem_append.1 hsp with h1 | h1
      · exact hspans sp h1
      · rename_i top rest
        have := hstack top (by simp)
        rw [List.mem_singleton.1 h1]
        exact ⟨this.1, this.2⟩
    · exact hspans sp hsp

theorem popRestore_shape (base : InlineFrame) (stack : List InlineFrame)
    (hbase : DefinedFrame base)
    (hne : stack ≠ []) (hdef : ∀ f ∈ stack, DefinedFrame f)
    (hlast : stack.getLast? = some base) :
    popRestore base stack ≠ [] ∧ (∀ f ∈ popRestore base stack, DefinedFrame f) ∧
      (popRestore base stack).getLast? = some base := by
  match stack with
  | [] => exact absurd rfl hne
  | [p] =>
    rw [show popRestore base [p] = [p] from rfl]
    exact ⟨by simp, hdef, hlast⟩
  | p :: q :: rest =>
    rw [show popRestore base (p :: q :: rest) = q :: rest from rfl]
    refine ⟨by simp, fun f hf => hdef f (List.mem_cons_of_mem _ hf), ?_⟩
    rw [List.getLast?_cons_cons] at hlast
    exact hlast

/-- The stack/span invariant of the resolver loop. -/
theorem parseInlineLoop_invariant (base : InlineFrame) (hbase : DefinedFrame base) :
    ∀ (len : ℕ) (text : List Char), text.length ≤ len →
    ∀ (stack : List InlineFrame) (buf : List Char) (spans : List InlineSpan),
    stack ≠ [] → (∀ f ∈ stack, DefinedFrame f) → stack.getLast? = some base →
    (∀ sp ∈ spans, DefinedSpan sp) →
    (∀ sp ∈ (parseInlineLoop base text stack buf spans).1, DefinedSpan sp) ∧
    (parseInlineLoop base text stack buf spans).2 ≠ [] ∧
    (parseInlineLoop base text stack buf spans).2.getLast? = some base := by
  intro len
  induction len with
  | zero =>
    intro text hl stack buf spans hne hdef hlast hspans
    have : text = [] := by cases text <;> simp_all
    subst this
    rw [parseInlineLoop]
    exact ⟨pushBufSpans_defined hdef hspans, hne, hlast⟩
  | succ k ih =>
    intro text hl stack buf spans hne hdef hlast hspans
    match text with
    | [] =>
      rw [parseInlineLoop]
      exact ⟨pushBufSpans_defined hdef hspans, hne, hlast⟩
    | c :: cs =>
      have hcs : cs.length ≤ k := by simp at hl; omega
      by_cases hlt : c = '<'
      · subst hlt
        rw [parseInlineLoop]
        rw [if_pos (show ('<' : Char) = '<' from rfl)]
        split
        · exact ih cs hcs stack (buf ++ ['<']) spans hne hdef hlast hspans
        · rename_i inside rest hfg
          have hrest : rest.length ≤ k := by
            have := findGt_length hfg; simp at hl; omega
          split
          · obtain ⟨hne2, hdef2, hlast2⟩ := popRestore_shape base stack hbase hne hdef hlast
            exact ih rest hrest _ [] _ hne2 hdef2 hlast2
              (pushBufSpans_defined hdef hspans)
          · split
            · have htop : DefinedFrame (topFrame stack) := by
                match stack with
                | t :: _ => exact hdef t (by simp)
              have hdef2 : ∀ f ∈ applyOpen (trimL inside) (topFrame stack) :: stack,
                  DefinedFrame f := by
                intro f hf
                rcases List.mem_cons.1 hf with h1 | h1
                · exact h1 ▸ applyOpen_defined htop
                · exact hdef f h1
              have hlast2 : (applyOpen (trimL inside) (topFrame stack) :: stack).getLast?
                  = some base := by
                match stack with
                | t :: rest2 => rw [List.getLast?_cons_cons]; exact hlast
              exact ih rest hrest _ [] _ (by simp) hdef2 hlast2
                (pushBufSpans_defined hdef hspans)
            · exact ih rest hrest stack _ spans hne hdef hlast hspans
      · rw [parseInlineLoop]
        rw [if_neg hlt]
        exact ih cs hcs stack (buf ++ [c]) spans hne hdef hlast hspans

/-- C5: the resolver keeps its style stack non-empty with the original base
style always at the bottom, and every span it emits carries a defined color
and font size; being a total function, it never errors on any input. -/
theorem parseInline_stack_invariant (text : List Char) (b : InlineBase) :
    (∀ sp ∈ parseInline text b, sp.color.isSome = true ∧ sp.fontSize.isSome = true) ∧
    (parseInlineLoop (baseFrame b) text [baseFrame b] [] []).2 ≠ [] ∧
    (parseInlineLoop (baseFrame b) text [baseFrame b] [] []).2.getLast? =
      some (baseFrame b) := by
  have hbase : DefinedFrame (baseFrame b) := ⟨by simp [baseFrame], by simp [baseFrame]⟩
  obtain ⟨h1, h2, h3⟩ := parseInlineLoop_invariant (baseFrame b) hbase text.length text
    le_rfl [baseFrame b] [] [] (by simp) (by
      intro f hf
      rw [List.mem_singleton.1 hf]
      exact hbase) (by simp) (by simp)
  exact ⟨fun sp hsp => h1 sp hsp, h2, h3⟩

/-- C5 witness at a concrete input: the spans of `"a<c:red>b</c>"` under a
concrete base style all carry defined color and font size, and the final
stack is the base singleton. -/
theorem c5_witness :
    (∀ sp ∈ parseInline "a<c:red>b</c>".toList ⟨"#000000".toList, 36⟩,
      sp.color.isSome = true ∧ sp.fontSize.isSome = true) ∧
    (parseInlineLoop (baseFrame ⟨"#000000".toList, 36⟩) "a<c:red>b</c>".toList
      [baseFrame ⟨"#000000".toList, 36⟩] [] []).2 ≠ [] ∧
    (parseInlineLoop (baseFrame ⟨"#000000".toList, 36⟩) "a<c:red>b</c>".toList
      [baseFrame ⟨"#000000".toList, 36⟩] [] []).2.getLast? =
      some (baseFrame ⟨"#000000".toList, 36⟩) :=
  parseInline_stack_invariant "a<c:red>b</c>".toList ⟨"#000000".toList, 36⟩

/-! ## `drawRichBlock` (render.ts lines 245-274) -/

inductive TextAlign where
  | left
  | center
  | right
  | justify
deriving DecidableEq, Repr

/-- The style record handed to `drawRichBlock` (its `base` parameter). -/
structure RichBase where
  x : ℚ
  y : ℚ
  fontFamily : List Char
  fontSize : ℚ
  lineHeight : Option ℚ
  textAlign : TextAlign
  color : List Char
  maxLines : Option ℕ
  charsPerLine : Option ℕ
  width : Option ℚ
deriving DecidableEq, Repr

/-- JS `Math.round`: round half toward positive infinity. -/
def jsRound (q : ℚ) : ℚ :=
  ((⌊q + 1/2⌋ : ℤ) : ℚ)

/-- One call of `ctx.fillText` together with the canvas state set for it:
font size and family (`ctx.font`), fill color, text alignment and baseline.
`drawRichBlock` always sets `ctx.textAlign = "left"` and
`ctx.textBaseline = "top"` (render.ts lines 267-268). -/
structure DrawOp where
  text : List Char
  x : ℚ
  y : ℚ
  fontSize : ℚ
  fontFamily : List Char
  color : List Char
  align : TextAlign
  baseline : List Char
deriving DecidableEq, Repr

/-- The inner span loop of `drawRichBlock` (render.ts lines 264-272): draw
each span at the running horizontal cursor, advancing it by the span's
measured width.  `measure fs text` models `ctx.measureText(text).width`
under `ctx.font = fs px fontFamily`. -/
def drawSpansLoop (measure : ℚ → List Char → ℚ) (fontFamily dfltColor : List Char)
    (dfltFontSize : ℚ) (y : ℚ) : List InlineSpan → ℚ → List DrawOp
  | [], _ => []
  | sp :: rest, cursorX =>
    ⟨sp.text, cursorX, y, sp.fontSize.getD dfltFontSize, fontFamily,
      sp.color.getD dfltColor, TextAlign.left, "top".toList⟩ ::
    drawSpansLoop measure fontFamily dfltColor dfltFontSize y rest
      (cursorX + measure (sp.fontSize.getD dfltFontSize) sp.text)

/-- The outer line loop of `drawRichBlock` (render.ts lines 257-273). -/
def drawLinesLoop (measure : ℚ → List Char → ℚ) (fontFamily dfltColor : List Char)
    (dfltFontSize x0 y0 lineHeight : ℚ) : List (List Char) → ℕ → List DrawOp
  | [], _ => []
  | lineText :: rest, li =>
    drawSpansLoop measure fontFamily dfltColor dfltFontSize (y0 + li * lineHeight)
      (parseInline lineText ⟨dfltColor, dfltFontSize⟩) x0 ++
    drawLinesLoop measure fontFamily dfltColor dfltFontSize x0 y0 lineHeight rest (li + 1)

/-- `drawRichBlock` (render.ts lines 245-274), as the list of draw
operations it performs, in order. -/
def drawRichBlock (measure : ℚ → List Char → ℚ) (content : List Char)
    (base : RichBase) : List DrawOp :=
  let charsPerLine := base.charsPerLine.getD 24
  let lineHeight := base.lineHeight.getD (jsRound (base.fontSize * (7/5)))
  let allLines := splitIntoInlineSafeLines content charsPerLine
  let maxLines := base.maxLines.getD allLines.length
  let lines := allLines.take maxLines
  drawLinesLoop measure base.fontFamily base.color base.fontSize base.x base.y
    lineHeight lines 0

/-- C9: `drawRichBlock` never reads `textAlign` — for any two
configurations differing only in `textAlign`, the produced sequence of draw
operations (texts, positions, fonts, colors, and the constant left/top
canvas state) is identical. -/
theorem drawRichBlock_textAlign_independent (measure : ℚ → List Char → ℚ)
    (content : List Char) (base : RichBase) (a1 a2 : TextAlign) :
    drawRichBlock measure content { base with textAlign := a1 } =
    drawRichBlock measure content { base with textAlign := a2 } := by
  cases base
  rfl

/-! ## Overlay compositor (render.ts lines 317-402)

`Math.random()` is modelled as an injected source `rng : ℕ → ℚ` of values
in `[0,1)` together with an explicit index for the next draw, following the
spec's "randomness as a capability" modelling note. -/

/-- A per-instance override entry of `layer.positions` (`OverlayPosition`). -/
structure OverlayPos where
  asset : Option (List Char)
  x : Option ℚ
  y : Option ℚ
  scale : Option ℚ
  rotation : Option ℚ
  alpha : Option ℚ
deriving DecidableEq, Repr

/-- `OverlayConfig` from render.ts lines 38-46. -/
structure OverlayLayer where
  enable : Bool
  count : ℚ
  positions : List OverlayPos
  randomize : Bool
  scaleRange : ℚ × ℚ
  rotationRange : ℚ × ℚ
  alphaRange : ℚ × ℚ
deriving DecidableEq, Repr

/-- `randBetween` (render.ts lines 335-339), with the `Math.random()` value
`r` injected. -/
def randBetween (a b r : ℚ) : ℚ :=
  min a b + r * (max a b - min a b)

/-- `pos.field ?? (layer.randomize ? randBetween(lo, hi) : dflt)`
(render.ts lines 373-375): resolve one scalar, returning the value and the
next random index. -/
def resolveScalar (explicit : Option ℚ) (randomize : Bool) (lo hi dflt : ℚ)
    (rng : ℕ → ℚ) (k : ℕ) : ℚ × ℕ :=
  match explicit with
  | some v => (v, k)
  | none => if randomize then (randBetween lo hi (rng k), k + 1) else (dflt, k)

/-- The geometry with which one overlay instance is drawn. -/
structure ResolvedGeom where
  scale : ℚ
  rotDeg : ℚ
  alpha : ℚ
  x : ℚ
  y : ℚ
deriving DecidableEq, Repr

/-- Per-instance geometry resolution of `drawOverlays`
(render.ts lines 373-390): scale, rotation and alpha in order, then the
position, which keeps `pos.x`/`pos.y` only when **both** are numbers
(`typeof x !== "number" || typeof y !== "number"` guards the whole block);
otherwise both coordinates are drawn randomly when `layer.randomize`, else
missing ones default to 0. -/
def resolveGeom (layer : OverlayLayer) (pos : OverlayPos) (imgW imgH canvasW canvasH : ℚ)
    (rng : ℕ → ℚ) (k : ℕ) : ResolvedGeom × ℕ :=
  let sres := resolveScalar pos.scale layer.randomize layer.scaleRange.1
    layer.scaleRange.2 1 rng k
  let rres := resolveScalar pos.rotation layer.randomize layer.rotationRange.1
    layer.rotationRange.2 0 rng sres.2
  let ares := resolveScalar pos.alpha layer.randomize layer.alphaRange.1
    layer.alphaRange.2 1 rng rres.2
  let w := imgW * sres.1
  let h := imgH * sres.1
  match pos.x, pos.y with
  | some px, some py => (⟨sres.1, rres.1, ares.1, px, py⟩, ares.2)
  | ox, oy =>
    if layer.randomize then
      (⟨sres.1, rres.1, ares.1,
        randBetween 0 (max 0 (canvasW - w)) (rng ares.2),
        randBetween 0 (max 0 (canvasH - h)) (rng (ares.2 + 1))⟩, ares.2 + 2)
    else
      (⟨sres.1, rres.1, ares.1, ox.getD 0, oy.getD 0⟩, ares.2)

/-- Lowercase a path, modelling `String.prototype.toLowerCase`. -/
def toLowerL (l : List Char) : List Char :=
  l.map Char.toLower

/-- The per-instance asset-override lookup
(`assetsPool.find(p => p.toLowerCase().endsWith("/" + base) || ...)`,
render.ts lines 363-366). -/
def findAssetInPool (pool : List (List Char)) (assetName : List Char) :
    Option (List Char) :=
  let b := toLowerL (trimL assetName)
  pool.find? (fun p => ('/' :: b).isSuffixOf (toLowerL p) ||
    ('\\' :: b).isSuffixOf (toLowerL p))

/-- The asset chosen for instance `i` (render.ts lines 362-369): the
override lookup if `pos.asset` is truthy and found, else `chosenAssets[i]`;
`none` means the instance is skipped (`if (!assetPath) continue`). -/
def resolveAsset (pool chosen : List (List Char)) (posAsset : Option (List Char))
    (i : ℕ) : Option (List Char) :=
  let found := match posAsset with
    | some a => if a = [] then none else findAssetInPool pool a
    | none => none
  match found with
  | some p => some p
  | none => chosen.get? i

/-! ## `chooseAssets` (render.ts lines 317-333) -/

/-- `[shuffled[i], shuffled[j]] = [shuffled[j], shuffled[i]]`: both reads
happen before both writes; out-of-range indices leave the list unchanged
(unreachable for random values in `[0,1)`). -/
def swapL {α : Type} (l : List α) (i j : ℕ) : List α :=
  match l.get? i, l.get? j with
  | some a, some b => (l.set i b).set j a
  | _, _ => l

/-- The Fisher-Yates loop `for (i = length-1; i > 0; i--)` of `chooseAssets`
(render.ts lines 325-328); `rng i` is the `Math.random()` value drawn at
loop index `i`. -/
def fyLoop {α : Type} (rng : ℕ → ℚ) : ℕ → List α → List α
  | 0, l => l
  | i + 1, l => fyLoop rng i (swapL l (i + 1) (Int.toNat ⌊rng (i + 1) * ((i : ℚ) + 2)⌋))

/-- The full shuffle `const shuffled = pool.slice(); for ... swap`. -/
def fisherYates {α : Type} (l : List α) (rng : ℕ → ℚ) : List α :=
  fyLoop rng (l.length - 1) l

/-- `while (out.length < n) out.push(shuffled[out.length % shuffled.length])`
(render.ts line 331), with the number of remaining pushes made explicit. -/
def fillCycle {α : Type} (shuffled : List α) : ℕ → List α → List α
  | 0, out => out
  | m + 1, out =>
    match shuffled.get? (out.length % shuffled.length) with
    | some a => fillCycle shuffled m (out ++ [a])
    | none => out

/-- `chooseAssets` (render.ts lines 317-333). -/
def chooseAssets (pool : List (List Char)) (n : ℕ) (preferDistinct : Bool)
    (rng : ℕ → ℚ) : List (List Char) :=
  if n = 0 ∨ pool = [] then []
  else if preferDistinct = false then
    (List.range n).map (fun i => (pool.get? (i % pool.length)).getD [])
  else
    let shuffled := fisherYates pool rng
    let k := min n shuffled.length
    fillCycle shuffled (n - k) (shuffled.take k)

/-! ## Claims C2, C6, C7 -/

/-- C2 counterexample: with `randomize` on and only `x` explicitly
overridden (to 100), the code overwrites **both** coordinates with random
draws — resolving on a 50-wide canvas with a 10-wide asset and a random
source pinned to 0 yields `x = 0`, not the overridden 100. -/
theorem c2_counterexample :
    (resolveGeom ⟨true, 1, [], true, (1, 1), (0, 0), (1, 1)⟩
      ⟨none, some 100, none, some 1, some 0, some 1⟩ 10 10 50 50
      (fun _ => 0) 0).1.x = 0 ∧ (0 : ℚ) ≠ 100 := by
  constructor
  · simp [resolveGeom, resolveScalar, randBetween]
  · norm_num

/-- C2 (amended): an explicit position override takes precedence only when
**both** coordinates are given (then the instance is drawn exactly there,
whatever `randomize` is), or when `randomize` is off (then each given
coordinate is used and a missing one defaults to 0).  When `randomize` is
on and at least one coordinate is missing, both coordinates are drawn
randomly and any explicitly given coordinate is discarded. -/
theorem resolveGeom_position_precedence (layer : OverlayLayer) (pos : OverlayPos)
    (imgW imgH W H : ℚ) (rng : ℕ → ℚ) (k : ℕ) :
    (∀ px py, pos.x = some px → pos.y = some py →
      (resolveGeom layer pos imgW imgH W H rng k).1.x = px ∧
      (resolveGeom layer pos imgW imgH W H rng k).1.y = py) ∧
    (layer.randomize = false →
      (resolveGeom layer pos imgW imgH W H rng k).1.x = pos.x.getD 0 ∧
      (resolveGeom layer pos imgW imgH W H rng k).1.y = pos.y.getD 0) := by
  constructor
  · intro px py hx hy
    simp [resolveGeom, hx, hy]
  · intro hrand
    cases hx : pos.x <;> cases hy : pos.y <;>
      simp [resolveGeom, hx, hy, hrand]

/-- C2 witness: when both coordinates are overridden, they are used
verbatim even with `randomize` on. -/
theorem c2_witness :
    (resolveGeom ⟨true, 1, [], true, (1, 1), (0, 0), (1, 1)⟩
      ⟨none, some 100, some 200, some 1, some 0, some 1⟩ 10 10 50 50
      (fun _ => 0) 0).1.x = 100 ∧
    (resolveGeom ⟨true, 1, [], true, (1, 1), (0, 0), (1, 1)⟩
      ⟨none, some 100, some 200, some 1, some 0, some 1⟩ 10 10 50 50
      (fun _ => 0) 0).1.y = 200 :=
  (resolveGeom_position_precedence ⟨true, 1, [], true, (1, 1), (0, 0), (1, 1)⟩
    ⟨none, some 100, some 200, some 1, some 0, some 1⟩ 10 10 50 50
    (fun _ => 0) 0).1 100 200 rfl rfl

/-- C6: an explicitly provided per-instance scale, rotation or alpha is
used exactly as given, for any value of `randomize`; the layer ranges are
ignored for that field. -/
theorem resolveGeom_explicit_scalars (layer : OverlayLayer) (pos : OverlayPos)
    (imgW imgH W H : ℚ) (rng : ℕ → ℚ) (k : ℕ) :
    (∀ s, pos.scale = some s → (resolveGeom layer pos imgW imgH W H rng k).1.scale = s) ∧
    (∀ r, pos.rotation = some r →
      (resolveGeom layer pos imgW imgH W H rng k).1.rotDeg = r) ∧
    (∀ a, pos.alpha = some a → (resolveGeom layer pos imgW imgH W H rng k).1.alpha = a) := by
  refine ⟨?_, ?_, ?_⟩ <;> intro v hv <;>
    cases hx : pos.x <;> cases hy : pos.y <;>
      simp [resolveGeom, resolveScalar, hx, hy, hv] <;> split <;> simp

/-- C6 witness: an explicit scale, rotation and alpha survive resolution
unchanged under an active `randomize` flag. -/
theorem c6_witness :
    (resolveGeom ⟨true, 1, [], true, (1, 2), (-15, 15), (0, 1)⟩
      ⟨none, none, none, some 7, some 30, some (1/2)⟩ 10 10 50 50
      (fun _ => 0) 0).1.scale = 7 ∧
    (resolveGeom ⟨true, 1, [], true, (1, 2), (-15, 15), (0, 1)⟩
      ⟨none, none, none, some 7, some 30, some (1/2)⟩ 10 10 50 50
      (fun _ => 0) 0).1.rotDeg = 30 ∧
    (resolveGeom ⟨true, 1, [], true, (1, 2), (-15, 15), (0, 1)⟩
      ⟨none, none, none, some 7, some 30, some (1/2)⟩ 10 10 50 50
      (fun _ => 0) 0).1.alpha = 1/2 := by
  obtain ⟨h1, h2, h3⟩ := resolveGeom_explicit_scalars
    ⟨true, 1, [], true, (1, 2), (-15, 15), (0, 1)⟩
    ⟨none, none, none, some 7, some 30, some (1/2)⟩ 10 10 50 50 (fun _ => 0) 0
  exact ⟨h1 7 rfl, h2 30 rfl, h3 (1/2) rfl⟩

theorem randBetween_zero_max (m r : ℚ) (h0 : 0 ≤ r) (h1 : r < 1) :
    0 ≤ randBetween 0 (max 0 m) r ∧ randBetween 0 (max 0 m) r ≤ max 0 m ∧
      (m < 0 → randBetween 0 (max 0 m) r = 0) := by
  have hm : (0 : ℚ) ≤ max 0 m := le_max_left 0 m
  rw [randBetween, min_eq_left hm, max_eq_right hm]
  refine ⟨?_, ?_, ?_⟩
  · simpa using mul_nonneg h0 hm
  · have := mul_le_mul_of_nonneg_right (le_of_lt h1) hm
    simpa using this
  · intro hneg
    rw [max_eq_left (le_of_lt hneg)]
    simp

/-- C7: for a randomized instance with no explicit position override and a
random source producing values in `[0,1)`, the resolved `x` lies in
`[0, max 0 (canvasW - scale*imgW)]` and is exactly 0 when the scaled asset
is wider than the canvas; symmetrically for `y`. -/
theorem resolveGeom_random_position_bounds (layer : OverlayLayer) (pos : OverlayPos)
    (imgW imgH W H : ℚ) (rng : ℕ → ℚ) (k : ℕ)
    (hrand : layer.randomize = true) (hx : pos.x = none) (hy : pos.y = none)
    (hr : ∀ m, 0 ≤ rng m ∧ rng m < 1) :
    (0 ≤ (resolveGeom layer pos imgW imgH W H rng k).1.x ∧
     (resolveGeom layer pos imgW imgH W H rng k).1.x ≤
       max 0 (W - (resolveGeom layer pos imgW imgH W H rng k).1.scale * imgW) ∧
     (W - (resolveGeom layer pos imgW imgH W H rng k).1.scale * imgW < 0 →
       (resolveGeom layer pos imgW imgH W H rng k).1.x = 0)) ∧
    (0 ≤ (resolveGeom layer pos imgW imgH W H rng k).1.y ∧
     (resolveGeom layer pos imgW imgH W H rng k).1.y ≤
       max 0 (H - (resolveGeom layer pos imgW imgH W H rng k).1.scale * imgH) ∧
     (H - (resolveGeom layer pos imgW imgH W H rng k).1.scale * imgH < 0 →
       (resolveGeom layer pos imgW imgH W H rng k).1.y = 0)) := by
  simp only [resolveGeom, hx, hy, hrand, if_pos]
  constructor
  · have hb := randBetween_zero_max
      (W - imgW * (resolveScalar pos.scale true layer.scaleRange.1
        layer.scaleRange.2 1 rng k).1)
      (rng (resolveScalar pos.alpha true layer.alphaRange.1 layer.alphaRange.2 1 rng
        (resolveScalar pos.rotation true layer.rotationRange.1 layer.rotationRange.2 0 rng
          (resolveScalar pos.scale true layer.scaleRange.1 layer.scaleRange.2 1 rng
            k).2).2).2)
      (hr _).1 (hr _).2
    rw [show (resolveScalar pos.scale true layer.scaleRange.1
        layer.scaleRange.2 1 rng k).1 * imgW =
      imgW * (resolveScalar pos.scale true layer.scaleRange.1
        layer.scaleRange.2 1 rng k).1 from mul_comm _ _]
    exact hb
  · have hb := randBetween_zero_max
      (H - imgH * (resolveScalar pos.scale true layer.scaleRange.1
        layer.scaleRange.2 1 rng k).1)
      (rng ((resolveScalar pos.alpha true layer.alphaRange.1 layer.alphaRange.2 1 rng
        (resolveScalar pos.rotation true layer.rotationRange.1 layer.rotationRange.2 0 rng
          (resolveScalar pos.scale true layer.scaleRange.1 layer.scaleRange.2 1 rng
            k).2).2).2 + 1))
      (hr _).1 (hr _).2
    rw [show (resolveScalar pos.scale true layer.scaleRange.1
        layer.scaleRange.2 1 rng k).1 * imgH =
      imgH * (resolveScalar pos.scale true layer.scaleRange.1
        layer.scaleRange.2 1 rng k).1 from mul_comm _ _]
    exact hb

/-- C7 witness at a concrete randomized layer, with the random source
pinned to 1/2: the resolved coordinates obey the canvas bounds. -/
theorem c7_witness :
    0 ≤ (resolveGeom ⟨true, 1, [], true, (1, 1), (0, 0), (1, 1)⟩
      ⟨none, none, none, none, none, none⟩ 10 10 100 100 (fun _ => 1/2) 0).1.x ∧
    (resolveGeom ⟨true, 1, [], true, (1, 1), (0, 0), (1, 1)⟩
      ⟨none, none, none, none, none, none⟩ 10 10 100 100 (fun _ => 1/2) 0).1.x ≤
      max 0 (100 - (resolveGeom ⟨true, 1, [], true, (1, 1), (0, 0), (1, 1)⟩
        ⟨none, none, none, none, none, none⟩ 10 10 100 100
        (fun _ => 1/2) 0).1.scale * 10) := by
  have h := (resolveGeom_random_position_bounds ⟨true, 1, [], true, (1, 1), (0, 0), (1, 1)⟩
    ⟨none, none, none, none, none, none⟩ 10 10 100 100 (fun _ => 1/2) 0
    rfl rfl rfl (fun m => by norm_num)).1
  exact ⟨h.1, h.2.1⟩

/-! ## Claim C3 -/

/-- C3 counterexample: an instance whose asset-name override is not found
in the pool is **not** skipped — the code falls back to the drawn selection
`chosenAssets[i]` and draws that asset instead. -/
theorem c3_counterexample :
    resolveAsset ["assets/x.png".toList]
      (chooseAssets ["assets/x.png".toList] 1 true (fun _ => 0))
      (some "missing.png".toList) 0 = some "assets/x.png".toList ∧
    some "assets/x.png".toList ≠ (none : Option (List Char)) := by
  constructor
  · decide
  · simp

/-- C3 (amended): when the per-instance override names an asset not found
in the pool, the compositor falls back to the drawn selection
`chosenAssets[i]` for that instance (the selection cursor `i` is the loop
index, so it advances regardless); the instance is skipped, silently, only
when that fallback is also unavailable (empty pool / index out of range),
and no error is raised. -/
theorem resolveAsset_missing_fallback (pool chosen : List (List Char)) (a : List Char)
    (i : ℕ) (hfind : findAssetInPool pool a = none) :
    resolveAsset pool chosen (some a) i = chosen.get? i ∧
    (resolveAsset pool chosen (some a) i = none ↔ chosen.get? i = none) := by
  have heq : resolveAsset pool chosen (some a) i = chosen.get? i := by
    by_cases ha : a = [] <;> simp [resolveAsset, hfind, ha]
  exact ⟨heq, by rw [heq]⟩

/-- C3 witness: a concrete missing override falling back to the drawn
selection. -/
theorem c3_witness :
    resolveAsset ["a/x.png".toList] ["a/x.png".toList] (some "nope.png".toList) 0 =
      some "a/x.png".toList ∧
    (resolveAsset ["a/x.png".toList] ["a/x.png".toList] (some "nope.png".toList) 0 = none ↔
      (["a/x.png".toList].get? 0 : Option (List Char)) = none) := by
  have h := resolveAsset_missing_fallback ["a/x.png".toList] ["a/x.png".toList]
    "nope.png".toList 0 (by decide)
  exact ⟨h.1.trans (by decide), h.2⟩

/-! ## Claim C8: permutation lemmas for the Fisher-Yates shuffle -/

theorem cons_set_perm {α : Type} :
    ∀ (xs : List α) (b : ℕ) (hb : b < xs.length) (x : α),
    List.Perm (xs[b] :: xs.set b x) (x :: xs) := by
  intro xs
  induction xs with
  | nil => intro b hb; simp at hb
  | cons y ys ih =>
    intro b hb x
    cases b with
    | zero =>
      simpa using List.Perm.swap x y ys
    | succ b2 =>
      have hb2 : b2 < ys.length := by simpa using hb
      have step1 : List.Perm ((y :: ys)[b2 + 1] :: (y :: ys).set (b2 + 1) x)
          (y :: (ys[b2] :: ys.set b2 x)) := by
        simpa using List.Perm.swap y (ys[b2]) (ys.set b2 x)
      have step2 : List.Perm (y :: (ys[b2] :: ys.set b2 x)) (y :: (x :: ys)) :=
        List.Perm.cons y (ih b2 hb2 x)
      have step3 : List.Perm (y :: x :: ys) (x :: y :: ys) := List.Perm.swap x y ys
      exact (step1.trans step2).trans step3

theorem set_set_perm_manual {α : Type} :
    ∀ (l : List α) (i j : ℕ) (hi : i < l.length) (hj : j < l.length),
    List.Perm ((l.set i l[j]).set j l[i]) l := by
  intro l
  induction l with
  | nil => intro i j hi; simp at hi
  | cons x xs ih =>
    intro i j hi hj
    cases i with
    | zero =>
      cases j with
      | zero => simp
      | succ b =>
        have hb : b < xs.length := by simpa using hj
        simpa using cons_set_perm xs b hb x
    | succ a =>
      cases j with
      | zero =>
        have ha : a < xs.length := by simpa using hi
        simpa using cons_set_perm xs a ha x
      | succ b =>
        have ha : a < xs.length := by simpa using hi
        have hb : b < xs.length := by simpa using hj
        simpa using List.Perm.cons x (ih a b ha hb)

theorem swapL_perm {α : Type} (l : List α) (i j : ℕ) : List.Perm (swapL l i j) l := by
  rw [swapL.eq_def]
  split
  · rename_i a b hgi hgj
    obtain ⟨hi, hia⟩ := List.get?_eq_some.1 hgi
    obtain ⟨hj, hjb⟩ := List.get?_eq_some.1 hgj
    have ha2 : a = l[i] := by rw [← hia]; rfl
    have hb2 : b = l[j] := by rw [← hjb]; rfl
    rw [ha2, hb2]
    exact set_set_perm_manual l i j hi hj
  · exact List.Perm.refl l

theorem fyLoop_perm {α : Type} (rng : ℕ → ℚ) :
    ∀ (i : ℕ) (l : List α), List.Perm (fyLoop rng i l) l := by
  intro i
  induction i with
  | zero => intro l; exact List.Perm.refl l
  | succ i2 ih =>
    intro l
    rw [fyLoop]
    exact (ih _).trans (swapL_perm l (i2 + 1) _)

theorem fisherYates_perm {α : Type} (l : List α) (rng : ℕ → ℚ) :
    List.Perm (fisherYates l rng) l :=
  fyLoop_perm rng (l.length - 1) l

theorem fillCycle_append {α : Type} :
    ∀ (m : ℕ) (sh out : List α), ∃ ext, fillCycle sh m out = out ++ ext := by
  intro m
  induction m with
  | zero => intro sh out; exact ⟨[], by simp [fillCycle]⟩
  | succ m2 ih =>
    intro sh out
    rw [fillCycle]
    cases hg : sh.get? (out.length % sh.length) with
    | none => simp [hg]
    | some a =>
      simp only [hg]
      obtain ⟨ext, he⟩ := ih sh (out ++ [a])
      exact ⟨[a] ++ ext, by rw [he]; simp⟩

theorem fillCycle_length {α : Type} :
    ∀ (m : ℕ) (sh out : List α), sh ≠ [] →
    (fillCycle sh m out).length = out.length + m := by
  intro m
  induction m with
  | zero => intro sh out _; simp [fillCycle]
  | succ m2 ih =>
    intro sh out hsh
    rw [fillCycle]
    have hlt : out.length % sh.length < sh.length :=
      Nat.mod_lt _ (List.length_pos.2 hsh)
    cases hg : sh.get? (out.length % sh.length) with
    | none =>
      exfalso
      have := List.get?_eq_none.1 hg
      omega
    | some a =>
      simp only [hg]
      rw [ih sh (out ++ [a]) hsh]
      simp only [List.length_append, List.length_cons, List.length_nil]
      omega

theorem fillCycle_get_lt {α : Type} (m : ℕ) (sh out : List α) (j : ℕ)
    (hj : j < out.length) : (fillCycle sh m out).get? j = out.get? j := by
  obtain ⟨ext, he⟩ := fillCycle_append m sh out
  rw [he]
  exact List.get?_append hj

theorem fillCycle_get_ge {α : Type} :
    ∀ (m : ℕ) (sh out : List α), sh ≠ [] →
    ∀ j, out.length ≤ j → j < out.length + m →
    (fillCycle sh m out).get? j = sh.get? (j % sh.length) := by
  intro m
  induction m with
  | zero => intro sh out _ j h1 h2; omega
  | succ m2 ih =>
    intro sh out hsh j h1 h2
    rw [fillCycle]
    have hlt : out.length % sh.length < sh.length :=
      Nat.mod_lt _ (List.length_pos.2 hsh)
    cases hg : sh.get? (out.length % sh.length) with
    | none =>
      exfalso
      have := List.get?_eq_none.1 hg
      omega
    | some a =>
      simp only [hg]
      by_cases hj : j = out.length
      · subst hj
        rw [fillCycle_get_lt m2 sh (out ++ [a]) out.length (by simp)]
        rw [List.get?_append_right (le_refl _)]
        simpa using hg.symm
      · exact (ih sh (out ++ [a]) hsh j (by simp; omega) (by simp; omega))

/-- C8: with a non-empty pool of distinct asset paths and any valid random
source, `chooseAssets pool n true rng` returns exactly `n` paths, all from
the pool; the first `min n poolSize` are pairwise distinct, and every entry
`j` equals the shuffled pool at index `j mod poolSize`, so a request larger
than the pool wraps around and never fails. -/
theorem chooseAssets_spec (pool : List (List Char)) (n : ℕ) (rng : ℕ → ℚ)
    (hpool : pool ≠ []) (hn : 1 ≤ n) (hnodup : pool.Nodup) :
    (chooseAssets pool n true rng).length = n ∧
    (∀ x ∈ chooseAssets pool n true rng, x ∈ pool) ∧
    ((chooseAssets pool n true rng).take (min n pool.length)).Nodup ∧
    (∀ j < n, (chooseAssets pool n true rng).get? j =
      (fisherYates pool rng).get? (j % pool.length)) := by
  have hperm := fisherYates_perm pool rng
  have hlen : (fisherYates pool rng).length = pool.length := hperm.length_eq
  have hpoolpos : 0 < pool.length := List.length_pos.2 hpool
  have hshne : fisherYates pool rng ≠ [] := by
    intro h
    rw [h] at hlen
    simp at hlen
    omega
  have hchoose : chooseAssets pool n true rng =
      fillCycle (fisherYates pool rng) (n - min n (fisherYates pool rng).length)
        ((fisherYates pool rng).take (min n (fisherYates pool rng).length)) := by
    rw [chooseAssets, if_neg (by simp [hpool]; omega), if_neg (by simp)]
  have hkle : min n (fisherYates pool rng).length ≤ (fisherYates pool rng).length :=
    min_le_right _ _
  have hkn : min n (fisherYates pool rng).length ≤ n := min_le_left _ _
  have houtlen : ((fisherYates pool rng).take
      (min n (fisherYates pool rng).length)).length = min n (fisherYates pool rng).length := by
    rw [List.length_take]
    omega
  have hgets : ∀ j < n, (chooseAssets pool n true rng).get? j =
      (fisherYates pool rng).get? (j % pool.length) := by
    intro j hj
    rw [hchoose]
    by_cases hjk : j < min n (fisherYates pool rng).length
    · rw [fillCycle_get_lt _ _ _ j (by omega)]
      rw [List.get?_take hjk]
      congr 1
      rw [Nat.mod_eq_of_lt (by omega)]
    · rw [fillCycle_get_ge _ _ _ hshne j (by omega) (by omega)]
      rw [hlen]
  refine ⟨?_, ?_, ?_, hgets⟩
  · rw [hchoose, fillCycle_length _ _ _ hshne, houtlen]
    omega
  · intro x hx
    obtain ⟨j, hjg⟩ := List.mem_iff_get?.1 hx
    have hjlt : j < (chooseAssets pool n true rng).length := by
      by_contra hge
      rw [List.get?_eq_none.2 (by omega)] at hjg
      cases hjg
    have hjn : j < n := by
      rw [hchoose, fillCycle_length _ _ _ hshne, houtlen] at hjlt
      omega
    have := hgets j hjn
    rw [this] at hjg
    exact hperm.mem_iff.1 (List.get?_mem hjg)
  · obtain ⟨ext, he⟩ := fillCycle_append (n - min n (fisherYates pool rng).length)
      (fisherYates pool rng)
      ((fisherYates pool rng).take (min n (fisherYates pool rng).length))
    rw [hchoose, he]
    have hminEq : min n pool.length = min n (fisherYates pool rng).length := by
      rw [hlen]
    rw [hminEq, List.take_left' houtlen]
    exact ((List.take_sublist _ _).nodup (hperm.nodup_iff.2 hnodup))

/-- C8 witness: drawing 3 assets from a 2-element pool wraps around. -/
theorem c8_witness :
    (chooseAssets ["a".toList, "b".toList] 3 true (fun _ => 1/2)).length = 3 ∧
    (chooseAssets ["a".toList, "b".toList] 3 true (fun _ => 1/2)).get? 2 =
      (fisherYates ["a".toList, "b".toList] (fun _ => 1/2)).get? (2 % 2) := by
  have h := chooseAssets_spec ["a".toList, "b".toList] 3 (fun _ => 1/2)
    (by simp) (by norm_num) (by decide)
  exact ⟨h.1, h.2.2.2 2 (by norm_num)⟩

/-! ## Claim C10: the content-page loop of `renderAll`
(render.ts lines 477-510)

A page style is represented here by its `text` field, the only field the
loop inspects to decide whether a page is rendered; page `p` writes
`text_{p+1}.png` and appends it to the returned `texts` list.  We model the
loop as the ordered list of the file numbers `p+1` it writes.  When the
pages array is empty, `pageCount` is still 1 but `pages[0]` is `undefined`
and the JS code throws before writing any file; that path contributes no
file numbers, matching the model. -/

/-- `const pageCount = Math.max(1, Math.min(pages.length || 1, 6))`
(render.ts line 481). -/
def pageCount (pages : List (List Char)) : ℕ :=
  max 1 (min (if pages.length = 0 then 1 else pages.length) 6)

/-- The file numbers `p+1` of the content pages actually written: pages
with empty (falsy) text are skipped without shifting later numbers. -/
def contentPageNumbers (pages : List (List Char)) : List ℕ :=
  (List.range (pageCount pages)).filterMap (fun p =>
    match pages.get? p with
    | none => none
    | some t => if t = [] then none else some (p + 1))

/-- C10: `renderAll` produces at most 6 content pages even though the
configuration allows up to 7 page styles: the texts list has length at most
6, every written file number lies in `1..6` and belongs to a page whose
text is non-empty at exactly that index (so skipped empty pages do not
shift later numbers), and every non-empty page below the page cap is
rendered under its own number. -/
theorem renderAll_content_pages (pages : List (List Char)) :
    (contentPageNumbers pages).length ≤ 6 ∧
    (∀ m ∈ contentPageNumbers pages, 1 ≤ m ∧ m ≤ 6 ∧
      ∃ t, pages.get? (m - 1) = some t ∧ t ≠ []) ∧
    (∀ p, p < pageCount pages → ∀ t, pages.get? p = some t → t ≠ [] →
      (p + 1) ∈ contentPageNumbers pages) := by
  have hcap : pageCount pages ≤ 6 := by
    rw [pageCount]
    split <;> omega
  refine ⟨?_, ?_, ?_⟩
  · calc (contentPageNumbers pages).length
        ≤ (List.range (pageCount pages)).length := List.length_filterMap_le _ _
      _ = pageCount pages := List.length_range _
      _ ≤ 6 := hcap
  · intro m hm
    obtain ⟨p, hp, hf⟩ := List.mem_filterMap.1 hm
    have hplt : p < pageCount pages := List.mem_range.1 hp
    cases hget : pages.get? p with
    | none => rw [hget] at hf; cases hf
    | some t =>
      rw [hget] at hf
      change (if t = [] then none else some (p + 1)) = some m at hf
      by_cases ht : t = []
      · rw [if_pos ht] at hf; cases hf
      · rw [if_neg ht] at hf
        injection hf with hf
        subst hf
        refine ⟨by omega, by omega, t, ?_, ht⟩
        simpa using hget
  · intro p hp t hget ht
    refine List.mem_filterMap.2 ⟨p, List.mem_range.2 hp, ?_⟩
    rw [hget]
    change (if t = [] then none else some (p + 1)) = some (p + 1)
    rw [if_neg ht]

/-- C10 witness: with an empty first page and a non-empty second page, only
`text_2` is produced — the numbering of the second page is not shifted. -/
theorem c10_witness :
    (contentPageNumbers [[], "a".toList]).length ≤ 6 ∧
    (1 ≤ 2 ∧ 2 ≤ 6 ∧ ∃ t, [[], "a".toList].get? (2 - 1) = some t ∧ t ≠ []) ∧
    2 ∈ contentPageNumbers [[], "a".toList] := by
  obtain ⟨h1, h2, h3⟩ := renderAll_content_pages [[], "a".toList]
  refine ⟨h1, h2 2 (by decide), ?_⟩
  have := h3 1 (by decide) "a".toList (by decide) (by decide)
  simpa using this

end Note2Pic
